import Mathlib

set_option maxHeartbeats 1600000
set_option maxRecDepth 20000

/-!
Verification of `araxis_syntax_tool` (`src/araxis_syntax_tool/cli.py`), a
converter between a flat key-value syntax-highlighting blob and per-language
JSON records.  The Python functions are embedded shallowly: `dict[str, str]`
becomes an insertion-ordered association list, strings are Lean `String`s
manipulated through their character lists, and the fallible CLI commands
return `Except`.  Python string primitives (`split`, `strip`, `lower`,
substring membership, `json.dumps`/`json.loads` on flat string-to-string
objects) are modelled as executable character-list functions.
-/

namespace Araxis

/-- Python `dict` with string keys, in insertion order.  Lookup finds the
first (unique) matching key; insertion overwrites in place or appends. -/
abbrev Dict (α : Type) := List (String × α)

/-- The flat Araxis blob: a Python `dict[str, str]`. -/
abbrev Flat := Dict String

/-- `d[k]` / `d.get(k)`: first entry with key `k`. -/
def dget {α : Type} (d : Dict α) (k : String) : Option α :=
  (d.find? (fun p => p.1 == k)).map (fun p => p.2)

/-- `k in d`. -/
def dmem {α : Type} (d : Dict α) (k : String) : Bool :=
  d.any (fun p => p.1 == k)

/-- `d[k] = v`: replace in place if the key exists, else append. -/
def dinsert {α : Type} (d : Dict α) (k : String) (v : α) : Dict α :=
  if dmem d k then d.map (fun p => if p.1 == k then (k, v) else p)
  else d ++ [(k, v)]

/-- `d.pop(k, None)`: drop every entry with key `k`. -/
def dpop {α : Type} (d : Dict α) (k : String) : Dict α :=
  d.filter (fun p => p.1 != k)

/-- The keys of a dict, in order. -/
def dkeys {α : Type} (d : Dict α) : List String :=
  d.map (fun p => p.1)

/-- Split a character list at every character satisfying `p`
(Python `str.split(sep)` semantics: `n` separators yield `n+1` parts). -/
def splitBy (p : Char → Bool) : List Char → List (List Char)
  | [] => [[]]
  | c :: rest =>
    match splitBy p rest with
    | [] => [[c]]
    | h :: t => if p c then [] :: h :: t else (c :: h) :: t

/-- Rejoin parts with `';'` (Python `";".join`). -/
def joinSemis : List (List Char) → List Char
  | [] => []
  | [x] => x
  | x :: xs => x ++ ';' :: joinSemis xs

/-- Python whitespace for `str.strip()` / `str.split()`. -/
def pyWs (c : Char) : Bool :=
  c == ' ' || c == '\t' || c == '\n' || c == '\r' ||
  c == Char.ofNat 11 || c == Char.ofNat 12

/-- Python `str.strip()` on a character list. -/
def pyStrip (l : List Char) : List Char :=
  ((l.dropWhile pyWs).reverse.dropWhile pyWs).reverse

/-- Python `str.split()` (no argument): whitespace runs, no empty parts. -/
def pySplitWs (l : List Char) : List (List Char) :=
  (splitBy pyWs l).filter (fun part => part != [])

/-- Python `str.lower()` (ASCII case). -/
def pyLower (s : String) : String :=
  String.mk (s.data.map Char.toLower)

/-- Python `pat in s` substring test. -/
def hasSubstr : List Char → List Char → Bool
  | [], pat => pat.isEmpty
  | c :: t, pat => pat.isPrefixOf (c :: t) || hasSubstr t pat

-- Araxis key prefixes (cli.py lines 18-28).

def K_FILE_PATTERNS : String := "file.patterns."
def K_DESC : String := "genericlanguage.description."
def K_KW1 : String := "keywords.*."
def K_KW2 : String := "keywords2.*."
def K_OPS : String := "keywords3.*."
def K_SL : String := "keywords4.*."
def K_ML_START : String := "keywords5.*."
def K_ML_END : String := "keywords6.*."
def K_CASE : String := "keywords7.*."
def K_KW3 : String := "keywords8.*."
def K_LEXER : String := "lexer.*."

/-- `pattern_to_key_suffix` (cli.py lines 40-48): split the pattern on `;`,
strip a leading `*.` (two characters) or `*` (one character) from the first
segment only, and rejoin with `;`. -/
def pattern_to_key_suffix (filename_pattern : String) : String :=
  match splitBy (fun c => c == ';') filename_pattern.data with
  | [] => String.mk (joinSemis [])
  | p0 :: rest =>
    let p0' : List Char :=
      match p0 with
      | '*' :: '.' :: t => t
      | '*' :: t => t
      | t => t
    String.mk (joinSemis (p0' :: rest))

/-- The `Language` dataclass (cli.py lines 158-172). -/
structure Language where
  uuid : String
  name : String
  filenamePattern : String
  keywordsClass1 : String := ""
  keywordsClass2 : String := ""
  keywordsClass3 : String := ""
  operatorSymbols : String := ""
  singleLineCommentSymbols : String := ""
  multiLineCommentStartSymbols : String := ""
  multiLineCommentEndSymbols : String := ""
  isCaseSensitive : String := "false"
  backslashIsAStringEscape : Bool := true
  lexer : String := "generic"
  deriving DecidableEq, Repr

/-- `Language.from_flat` (cli.py lines 174-207): rebuild a record from the
flat blob given its uuid and `file.patterns` value. -/
def Language.from_flat (uuid : String) (file_patterns : String) (flat : Flat) :
    Language :=
  let name := (dget flat (K_DESC ++ uuid)).getD ""
  let fp := file_patterns
  let get := fun (kp : String) =>
    (dget flat (kp ++ pattern_to_key_suffix fp)).getD ""
  let case_raw := String.mk (pyStrip (get K_CASE).data)
  let parsed : String × Bool :=
    if case_raw ≠ "" then
      let parts := pySplitWs case_raw.data
      let is_case :=
        match parts with
        | p :: _ =>
          let val := pyLower (String.mk p)
          if val = "true" ∨ val = "false" then val else "false"
        | [] => "false"
      let backslash_escape := !(hasSubstr case_raw.data "no_backslash_escape".data)
      (is_case, backslash_escape)
    else ("false", true)
  { uuid := uuid
    name := name
    filenamePattern := file_patterns
    keywordsClass1 := get K_KW1
    keywordsClass2 := get K_KW2
    keywordsClass3 := get K_KW3
    operatorSymbols := get K_OPS
    singleLineCommentSymbols := get K_SL
    multiLineCommentStartSymbols := get K_ML_START
    multiLineCommentEndSymbols := get K_ML_END
    isCaseSensitive := parsed.1
    backslashIsAStringEscape := parsed.2
    lexer := (if get K_LEXER = "" then "generic" else get K_LEXER) }

/-- The `keywords7` value written by `build_flat_from_languages`
(cli.py lines 264-269). -/
def caseValue (L : Language) : String :=
  let case_val :=
    if L.isCaseSensitive = "" then "false"
    else String.mk (pyStrip (L.isCaseSensitive.data.map Char.toLower))
  if L.backslashIsAStringEscape = false then case_val ++ " no_backslash_escape"
  else case_val

/-- The `lexer` value written by `build_flat_from_languages` (cli.py line 270). -/
def lexerValue (L : Language) : String :=
  if L.lexer = "" then "generic" else L.lexer

/-- One iteration of the `build_flat_from_languages` loop (cli.py lines 253-270):
insert the eleven keys of one record. -/
def insertBlock (flat : Flat) (L : Language) : Flat :=
  let flat := dinsert flat (K_FILE_PATTERNS ++ L.uuid) L.filenamePattern
  let flat := dinsert flat (K_DESC ++ L.uuid) L.name
  let suffix := pattern_to_key_suffix L.filenamePattern
  let flat := dinsert flat (K_KW1 ++ suffix) L.keywordsClass1
  let flat := dinsert flat (K_KW2 ++ suffix) L.keywordsClass2
  let flat := dinsert flat (K_KW3 ++ suffix) L.keywordsClass3
  let flat := dinsert flat (K_OPS ++ suffix) L.operatorSymbols
  let flat := dinsert flat (K_SL ++ suffix) L.singleLineCommentSymbols
  let flat := dinsert flat (K_ML_START ++ suffix) L.multiLineCommentStartSymbols
  let flat := dinsert flat (K_ML_END ++ suffix) L.multiLineCommentEndSymbols
  let flat := dinsert flat (K_CASE ++ suffix) (caseValue L)
  dinsert flat (K_LEXER ++ suffix) (lexerValue L)

/-- `build_flat_from_languages` (cli.py lines 251-271). -/
def build_flat_from_languages (langs : List Language) : Flat :=
  langs.foldl insertBlock []

/-- One iteration of the `parse_languages_from_flat` loop (cli.py lines 242-248). -/
def parseStep (flat : Flat) (acc : Dict Language × Flat) (kv : String × String) :
    Dict Language × Flat :=
  if K_FILE_PATTERNS.data.isPrefixOf kv.1.data then
    let uuid := String.mk (kv.1.data.drop K_FILE_PATTERNS.data.length)
    let lang := Language.from_flat uuid kv.2 flat
    let u2l := dinsert acc.1 uuid lang
    let p2u :=
      if lang.filenamePattern ≠ "" then dinsert acc.2 lang.filenamePattern uuid
      else acc.2
    (u2l, p2u)
  else acc

/-- `parse_languages_from_flat` (cli.py lines 239-249): returns
`(uuid_to_lang, pattern_to_uuid)` in insertion order. -/
def parse_languages_from_flat (flat : Flat) : Dict Language × Flat :=
  flat.foldl (parseStep flat) ([], [])

example : pattern_to_key_suffix "*.cpp" = "cpp" := by decide
example : pattern_to_key_suffix "*cpp" = "cpp" := by decide
example : pattern_to_key_suffix "cpp" = "cpp" := by decide
example : pattern_to_key_suffix "" = "" := by decide
example : pattern_to_key_suffix "*.h;*.hpp" = "h;*.hpp" := by decide
example : pattern_to_key_suffix ".cpp" = ".cpp" := by decide


-- JSON codec: `json.dumps` / `json.loads` modelled for flat
-- string-to-string objects, the only shape this tool serializes.

/-- Lowercase hex digit, as used by Python's `json` `\uXXXX` escapes. -/
def hexDigit (n : Nat) : Char :=
  if n < 10 then Char.ofNat (48 + n) else Char.ofNat (87 + n)

/-- Escape one character the way Python's `json.dumps(..., ensure_ascii=False)`
does: `"` and `\` get a backslash, the five short escapes are used for
`\b \t \n \f \r`, remaining control characters become `\u00xx`, and
everything else is emitted raw. -/
def escChar (c : Char) : List Char :=
  if c = '"' then ['\\', '"']
  else if c = '\\' then ['\\', '\\']
  else if c = Char.ofNat 8 then ['\\', 'b']
  else if c = Char.ofNat 9 then ['\\', 't']
  else if c = Char.ofNat 10 then ['\\', 'n']
  else if c = Char.ofNat 12 then ['\\', 'f']
  else if c = Char.ofNat 13 then ['\\', 'r']
  else if c.toNat < 32 then
    ['\\', 'u', '0', '0', hexDigit (c.toNat / 16), hexDigit (c.toNat % 16)]
  else [c]

/-- JSON-escape a whole string body (no surrounding quotes). -/
def escBody (s : List Char) : List Char :=
  s.foldr (fun c acc => escChar c ++ acc) []

/-- One `"key"<kvSep>"value"` item of a serialized object. -/
def itemChars (kvSep : List Char) (k v : String) : List Char :=
  '"' :: (escBody k.data ++ '"' :: (kvSep ++ '"' :: (escBody v.data ++ ['"'])))

/-- The items of a serialized nonempty object, with configurable separators
and closing text (compact and 2-space-indented layouts share this shape). -/
def emitPairs (kvSep pairSep closing : List Char) :
    List (String × String) → List Char
  | [] => closing
  | [(k, v)] => itemChars kvSep k v ++ closing
  | (k, v) :: rest => itemChars kvSep k v ++ (pairSep ++ emitPairs kvSep pairSep closing rest)

/-- `json.dumps(flat, ensure_ascii=False, separators=(",", ":"))`. -/
def dumpsCompact (m : Flat) : String :=
  if m.isEmpty then String.mk ['{', '}']
  else String.mk ('{' :: emitPairs [':'] [','] ['}'] m)

/-- `json.dumps(flat, ensure_ascii=False, indent=2)`. -/
def dumpsIndent2 (m : Flat) : String :=
  if m.isEmpty then String.mk ['{', '}']
  else String.mk ('{' :: '\n' :: ' ' :: ' ' ::
    emitPairs [':', ' '] [',', '\n', ' ', ' '] ['\n', '}'] m)

/-- `dump_araxis_json` (cli.py lines 232-237), returning the written text. -/
def dump_araxis_json (flat : Flat) (no_header : Bool) : String :=
  if no_header then dumpsIndent2 flat
  else "json: " ++ dumpsCompact flat

/-- JSON whitespace skipped by the parser. -/
def jWs (c : Char) : Bool :=
  c == ' ' || c == '\t' || c == '\n' || c == '\r'

def skipWs (l : List Char) : List Char :=
  l.dropWhile jWs

/-- Hex digit value, as accepted after `\u`. -/
def hexVal (c : Char) : Option Nat :=
  if 48 ≤ c.toNat ∧ c.toNat ≤ 57 then some (c.toNat - 48)
  else if 97 ≤ c.toNat ∧ c.toNat ≤ 102 then some (c.toNat - 87)
  else if 65 ≤ c.toNat ∧ c.toNat ≤ 70 then some (c.toNat - 55)
  else none

/-- Inverse of the two-character escapes. -/
def unescChar (c : Char) : Option Char :=
  if c = '"' then some '"'
  else if c = '\\' then some '\\'
  else if c = '/' then some '/'
  else if c = 'b' then some (Char.ofNat 8)
  else if c = 't' then some (Char.ofNat 9)
  else if c = 'n' then some (Char.ofNat 10)
  else if c = 'f' then some (Char.ofNat 12)
  else if c = 'r' then some (Char.ofNat 13)
  else none

/-- Parse a JSON string body (after the opening quote) up to the closing
quote; returns the decoded characters and the remaining input. -/
def parseStrBody : List Char → Option (List Char × List Char)
  | [] => none
  | c :: rest =>
    if c = '"' then some ([], rest)
    else if c = '\\' then
      match rest with
      | [] => none
      | e :: rest2 =>
        if e = 'u' then
          match rest2 with
          | h1 :: h2 :: h3 :: h4 :: rest3 =>
            match hexVal h1, hexVal h2, hexVal h3, hexVal h4 with
            | some n1, some n2, some n3, some n4 =>
              match parseStrBody rest3 with
              | some (b, r) =>
                some (Char.ofNat (((n1 * 16 + n2) * 16 + n3) * 16 + n4) :: b, r)
              | none => none
            | _, _, _, _ => none
          | _ => none
        else
          match unescChar e with
          | some c' =>
            match parseStrBody rest2 with
            | some (b, r) => some (c' :: b, r)
            | none => none
          | none => none
    else
      match parseStrBody rest with
      | some (b, r) => some (c :: b, r)
      | none => none

/-- Parse the `"k":"v"` items of a JSON object whose values are strings,
positioned at the opening quote of a key; fuelled for structural recursion. -/
def parsePairs : Nat → List Char → Option (List (String × String) × List Char)
  | 0, _ => none
  | fuel + 1, input =>
    match input with
    | [] => none
    | c :: r =>
      if c = '"' then
        match parseStrBody r with
        | none => none
        | some (k, r1) =>
          match skipWs r1 with
          | [] => none
          | c3 :: r3 =>
            if c3 = ':' then
              match skipWs r3 with
              | [] => none
              | c5 :: r5 =>
                if c5 = '"' then
                  match parseStrBody r5 with
                  | none => none
                  | some (v, r6) =>
                    match skipWs r6 with
                    | [] => none
                    | c8 :: r8 =>
                      if c8 = ',' then
                        match parsePairs fuel (skipWs r8) with
                        | none => none
                        | some (ps, r9) => some ((String.mk k, String.mk v) :: ps, r9)
                      else if c8 = '}' then some ([(String.mk k, String.mk v)], r8)
                      else none
                else none
            else none
      else none

/-- Parse a complete JSON object with string values (`json.loads` on the
blobs this tool writes); trailing non-whitespace is rejected. -/
def parseFlatObj (s : String) : Option (List (String × String)) :=
  match skipWs s.data with
  | [] => none
  | c :: r =>
    if c = '{' then
      match skipWs r with
      | [] => none
      | c2 :: r2 =>
        if c2 = '}' then (if skipWs r2 = [] then some [] else none)
        else
          match parsePairs ((c2 :: r2).length + 1) (c2 :: r2) with
          | some (ps, r3) => if skipWs r3 = [] then some ps else none
          | none => none
    else none

/-- `load_json_with_optional_header` (cli.py lines 218-230): slice the raw
text from the first `{` (if any), parse it as JSON, and build the
string-to-string dict entry by entry (duplicate keys collapse, last wins). -/
def load_json_with_optional_header (raw : String) : Option Flat :=
  let l := raw.data
  let sliced := if l.any (fun c => c == '{') then l.dropWhile (fun c => c ≠ '{') else l
  match parseFlatObj (String.mk sliced) with
  | some ps => some (ps.foldl (fun out kv => dinsert out kv.1 kv.2) [])
  | none => none

-- Directory loader and CLI orchestrators.

/-- A scalar JSON value in a per-language file (the shapes the loader
inspects: strings, booleans, null, integers). -/
inductive JVal where
  | jstr (s : String)
  | jbool (b : Bool)
  | jnull
  | jnum (n : Int)
  deriving DecidableEq, Repr

/-- A parsed per-language JSON object: field name to value. -/
abbrev JObj := List (String × JVal)

/-- `obj.get(k)`. -/
def jget (o : JObj) (k : String) : Option JVal :=
  (o.find? (fun p => p.1 == k)).map (fun p => p.2)

/-- Python `str(v)` on a scalar JSON value. -/
def pyStr : JVal → String
  | .jstr s => s
  | .jbool true => "True"
  | .jbool false => "False"
  | .jnull => "None"
  | .jnum n => toString n

/-- Python truthiness `bool(v)` on a scalar JSON value. -/
def pyTruthy : JVal → Bool
  | .jstr s => s != ""
  | .jbool b => b
  | .jnull => false
  | .jnum n => n != 0

/-- Every failure the CLI can raise (each `raise SystemExit(...)` site). -/
inductive Err where
  /-- `Missing required field <r> in <file>` (cli.py line 280). -/
  | missingField (field file : String)
  /-- `isCaseSensitive must be true or false in <file>` (line 301). -/
  | badCase (file : String)
  /-- `filenamePattern must be non-empty in <file>` (line 303). -/
  | emptyPattern (file : String)
  /-- `Duplicate filenamePattern between UUIDs <u1> and <u2>: <pat>` (line 332). -/
  | packConflict (u1 u2 pat : String)
  /-- `Merge conflict` naming incoming UUID, conflicting UUID and pattern (lines 361-366). -/
  | mergeConflict (incoming conflicting pat : String)
  /-- Blob decode failure (lines 221-223). -/
  | fmt
  deriving DecidableEq, Repr

def requiredFields : List String :=
  ["uuid", "name", "filenamePattern", "isCaseSensitive", "lexer"]

/-- The per-file body of `load_languages_from_dir` (cli.py lines 276-304):
check required fields, build the `Language`, validate it. -/
def loadOneFile (fileName : String) (obj : JObj) : Except Err Language :=
  match requiredFields.find? (fun r => !(obj.any (fun p => p.1 == r))) with
  | some r => .error (.missingField r fileName)
  | none =>
    let backslash : Bool :=
      match jget obj "backslashIsAStringEscape" with
      | none => true
      | some (.jstr s) => ["true", "1", "yes"].contains (pyLower s)
      | some v => pyTruthy v
    let L : Language :=
      { uuid := pyStr ((jget obj "uuid").getD (.jstr ""))
        name := pyStr ((jget obj "name").getD (.jstr ""))
        filenamePattern := pyStr ((jget obj "filenamePattern").getD (.jstr ""))
        keywordsClass1 := pyStr ((jget obj "keywordsClass1").getD (.jstr ""))
        keywordsClass2 := pyStr ((jget obj "keywordsClass2").getD (.jstr ""))
        keywordsClass3 := pyStr ((jget obj "keywordsClass3").getD (.jstr ""))
        operatorSymbols := pyStr ((jget obj "operatorSymbols").getD (.jstr ""))
        singleLineCommentSymbols := pyStr ((jget obj "singleLineCommentSymbols").getD (.jstr ""))
        multiLineCommentStartSymbols := pyStr ((jget obj "multiLineCommentStartSymbols").getD (.jstr ""))
        multiLineCommentEndSymbols := pyStr ((jget obj "multiLineCommentEndSymbols").getD (.jstr ""))
        isCaseSensitive := pyLower (pyStr ((jget obj "isCaseSensitive").getD (.jstr "false")))
        backslashIsAStringEscape := backslash
        lexer :=
          (let s := pyStr ((jget obj "lexer").getD (.jstr "generic"))
           if s = "" then "generic" else s) }
    if !(decide (L.isCaseSensitive = "true" ∨ L.isCaseSensitive = "false")) then
      .error (.badCase fileName)
    else if L.filenamePattern = "" then .error (.emptyPattern fileName)
    else .ok L

/-- Process the (already globbed and sorted) files in order, stopping at the
first failure. -/
def loadFiles : List (String × JObj) → Except Err (List Language)
  | [] => .ok []
  | (n, o) :: rest =>
    match loadOneFile n o with
    | .error e => .error e
    | .ok L =>
      match loadFiles rest with
      | .error e => .error e
      | .ok ls => .ok (L :: ls)

/-- Does a directory entry match the glob `*.json`?  (`pathlib` fnmatch:
`*` matches any run of characters, including an empty one and a leading dot,
so a name matches exactly when it ends in `.json`.) -/
def matchesJsonGlob (fileName : String) : Bool :=
  ".json".data.isSuffixOf fileName.data

/-- Python string comparison: lexicographic by code point. -/
def charListLe : List Char → List Char → Bool
  | [], _ => true
  | _ :: _, [] => false
  | a :: as, b :: bs =>
    if a.toNat < b.toNat then true
    else if b.toNat < a.toNat then false
    else charListLe as bs

/-- `s₁ <= s₂` as Python's `sorted` compares path names. -/
def strLe (a b : String) : Bool :=
  charListLe a.data b.data

/-- `load_languages_from_dir` (cli.py lines 273-305).  The directory listing
is given as an unordered list of (file name, parsed JSON object) pairs;
`sorted(indir.glob(...))` keeps the `*.json` entries in lexicographic
name order. -/
def load_languages_from_dir (listing : List (String × JObj)) :
    Except Err (List Language) :=
  loadFiles (List.insertionSort (fun a b => strLe a.1 b.1 = true)
    (listing.filter (fun f => matchesJsonGlob f.1)))

/-- The `seen` loop of `cmd_pack` (cli.py lines 329-333). -/
def packCheckLoop : Flat → List Language → Except Err Unit
  | _, [] => .ok ()
  | seen, L :: rest =>
    match dget seen L.filenamePattern with
    | some u =>
      if u ≠ L.uuid then .error (.packConflict u L.uuid L.filenamePattern)
      else packCheckLoop (dinsert seen L.filenamePattern L.uuid) rest
    | none => packCheckLoop (dinsert seen L.filenamePattern L.uuid) rest

/-- `cmd_pack` (cli.py lines 326-336) up to the blob it writes. -/
def pack_result (listing : List (String × JObj)) : Except Err Flat :=
  match load_languages_from_dir listing with
  | .error e => .error e
  | .ok langs =>
    match packCheckLoop [] langs with
    | .error e => .error e
    | .ok _ => .ok (build_flat_from_languages langs)

/-- `cmd_pack` including serialization: the text written to the output file. -/
def cmd_pack (listing : List (String × JObj)) (no_header : Bool) :
    Except Err String :=
  (pack_result listing).map (fun flat => dump_araxis_json flat no_header)

/-- `remove_lang` (cli.py lines 348-355): drop a uuid's identity keys and the
content keys under its old pattern's suffix from the target dict. -/
def remove_lang (tf : Flat) (uuid : String) : Flat :=
  let fp_old := (dget tf (K_FILE_PATTERNS ++ uuid)).getD ""
  let tf := dpop (dpop tf (K_FILE_PATTERNS ++ uuid)) (K_DESC ++ uuid)
  if fp_old ≠ "" then
    let suffix := pattern_to_key_suffix fp_old
    [K_KW1, K_KW2, K_KW3, K_OPS, K_SL, K_ML_START, K_ML_END, K_CASE, K_LEXER].foldl
      (fun t pref => dpop t (pref ++ suffix)) tf
  else tf

/-- The mutable state of the `cmd_merge` loop. -/
structure MState where
  target_flat : Flat
  uuid_to_lang : Dict Language
  pattern_to_uuid : Flat
  deriving DecidableEq, Repr

/-- The incoming-record loop of `cmd_merge` (cli.py lines 357-370). -/
def mergeLoop : MState → List Language → Except Err MState
  | st, [] => .ok st
  | st, L :: rest =>
    let uuid_exists := dmem st.uuid_to_lang L.uuid
    let conflict_uuid := dget st.pattern_to_uuid L.filenamePattern
    let conflictB : Bool :=
      !uuid_exists &&
        (match conflict_uuid with
         | some c => c != "" && c != L.uuid
         | none => false)
    if conflictB then
      .error (.mergeConflict L.uuid (conflict_uuid.getD "") L.filenamePattern)
    else
      let tf := if uuid_exists then remove_lang st.target_flat L.uuid else st.target_flat
      mergeLoop
        { target_flat := tf
          uuid_to_lang := dinsert st.uuid_to_lang L.uuid L
          pattern_to_uuid := dinsert st.pattern_to_uuid L.filenamePattern L.uuid }
        rest

/-- `cmd_merge` (cli.py lines 339-373) up to the blob it writes: the target
is `none` when the destination does not exist (the `FileNotFoundError`
path), else the raw text of the existing blob.  Returns the final record
list and the rebuilt flat blob. -/
def merge_result (targetRaw : Option String) (listing : List (String × JObj)) :
    Except Err (List Language × Flat) :=
  match
    (match targetRaw with
     | none => Except.ok ([] : Flat)
     | some raw =>
       match load_json_with_optional_header raw with
       | some m => Except.ok m
       | none => Except.error Err.fmt) with
  | .error e => .error e
  | .ok target_flat =>
    let parsed := parse_languages_from_flat target_flat
    match load_languages_from_dir listing with
    | .error e => .error e
    | .ok incoming =>
      match mergeLoop ⟨target_flat, parsed.1, parsed.2⟩ incoming with
      | .error e => .error e
      | .ok st =>
        let final := st.uuid_to_lang.map (fun p => p.2)
        .ok (final, build_flat_from_languages final)

/-- `cmd_merge` including serialization: the text written to the destination. -/
def cmd_merge (targetRaw : Option String) (listing : List (String × JObj))
    (no_header : Bool) : Except Err String :=
  (merge_result targetRaw listing).map (fun r => dump_araxis_json r.2 no_header)

-- Basic facts about the Python-dict model.

theorem dget_nil {α : Type} (k : String) : dget ([] : Dict α) k = none := rfl

theorem dget_cons {α : Type} (p : String × α) (d : Dict α) (k : String) :
    dget (p :: d) k = if p.1 = k then some p.2 else dget d k := by
  by_cases h : p.1 = k <;> simp [dget, List.find?_cons, h]

theorem dmem_iff {α : Type} (d : Dict α) (k : String) :
    dmem d k = true ↔ k ∈ dkeys d := by
  simp only [dmem, List.any_eq_true, dkeys, List.mem_map]
  constructor
  · rintro ⟨p, hp, he⟩
    exact ⟨p, hp, by simpa using (beq_iff_eq.mp he).symm ▸ rfl⟩
  · rintro ⟨p, hp, he⟩
    exact ⟨p, hp, by simp [he]⟩

theorem dget_eq_none_of_false {α : Type} (d : Dict α) (k : String)
    (h : dmem d k = false) : dget d k = none := by
  cases hfind : List.find? (fun p => p.1 == k) d with
  | none => simp [dget, hfind]
  | some p =>
    exfalso
    have hpred := List.find?_some hfind
    have hmemp := List.mem_of_find?_eq_some hfind
    have := List.any_eq_false.mp h p hmemp
    rw [hpred] at this
    simp at this

theorem dget_map_replace_ne {α : Type} (d : Dict α) (k : String) (v : α)
    (k' : String) (h : k' ≠ k) :
    dget (d.map (fun p => if p.1 == k then (k, v) else p)) k' = dget d k' := by
  induction d with
  | nil => rfl
  | cons p rest ih =>
    simp only [List.map_cons]
    rw [dget_cons, dget_cons]
    by_cases hp : p.1 = k
    · have h1 : (if p.1 == k then (k, v) else p) = (k, v) := by simp [hp]
      rw [h1, hp]
      rw [if_neg (Ne.symm h), if_neg (Ne.symm h)]
      exact ih
    · have h1 : (if p.1 == k then (k, v) else p) = p := by simp [hp]
      rw [h1]
      by_cases hk' : p.1 = k'
      · simp [hk']
      · simp only [hk', if_false]
        exact ih

theorem dget_map_replace_self {α : Type} (d : Dict α) (k : String) (v : α)
    (h : dmem d k = true) :
    dget (d.map (fun p => if p.1 == k then (k, v) else p)) k = some v := by
  induction d with
  | nil => simp [dmem] at h
  | cons p rest ih =>
    simp only [List.map_cons]
    rw [dget_cons]
    by_cases hp : p.1 = k
    · have h1 : (if p.1 == k then (k, v) else p) = (k, v) := by simp [hp]
      rw [h1]
      simp
    · have h1 : (if p.1 == k then (k, v) else p) = p := by simp [hp]
      have h' : dmem rest k = true := by
        simp only [dmem, List.any_cons, Bool.or_eq_true] at h
        rcases h with h | h
        · exact absurd (beq_iff_eq.mp h) hp
        · simpa [dmem] using h
      rw [h1, if_neg hp]
      exact ih h'

theorem dget_append {α : Type} (d d' : Dict α) (k : String) :
    dget (d ++ d') k = (dget d k).elim (dget d' k) some := by
  induction d with
  | nil => rfl
  | cons p rest ih =>
    rw [List.cons_append, dget_cons, dget_cons]
    by_cases hp : p.1 = k
    · simp [hp]
    · simp [hp, ih]

theorem dget_dinsert {α : Type} (d : Dict α) (k : String) (v : α) (k' : String) :
    dget (dinsert d k v) k' = if k' = k then some v else dget d k' := by
  by_cases hmem : dmem d k
  · simp only [dinsert, hmem, if_true]
    by_cases h : k' = k
    · rw [if_pos h, h]
      exact dget_map_replace_self d k v hmem
    · rw [if_neg h]
      exact dget_map_replace_ne d k v k' h
  · have hmem' : dmem d k = false := by simpa using hmem
    rw [show dinsert d k v = d ++ [(k, v)] from by simp [dinsert, hmem']]
    rw [dget_append]
    by_cases h : k' = k
    · subst h
      rw [dget_eq_none_of_false d k' hmem']
      simp [dget_cons]
    · rw [if_neg h]
      cases hd : dget d k' with
      | none => simp [dget_cons, Ne.symm h, dget_nil]
      | some w => simp

theorem dget_dinsert_self {α : Type} (d : Dict α) (k : String) (v : α) :
    dget (dinsert d k v) k = some v := by
  simp [dget_dinsert]

theorem dget_dinsert_ne {α : Type} (d : Dict α) (k : String) (v : α)
    (k' : String) (h : k' ≠ k) :
    dget (dinsert d k v) k' = dget d k' := by
  simp [dget_dinsert, h]

theorem dinsert_fresh {α : Type} (d : Dict α) (k : String) (v : α)
    (h : dmem d k = false) : dinsert d k v = d ++ [(k, v)] := by
  simp [dinsert, h]

theorem dmem_append {α : Type} (d d' : Dict α) (k : String) :
    dmem (d ++ d') k = (dmem d k || dmem d' k) := by
  simp [dmem, List.any_append]

theorem dkeys_append {α : Type} (d d' : Dict α) :
    dkeys (d ++ d') = dkeys d ++ dkeys d' := by
  simp [dkeys]

theorem dkeys_dinsert_of_mem {α : Type} (d : Dict α) (k : String) (v : α)
    (h : dmem d k = true) : dkeys (dinsert d k v) = dkeys d := by
  simp only [dinsert, h, if_true, dkeys, List.map_map]
  apply List.map_congr_left
  intro p _
  by_cases hp : p.1 = k <;> simp [Function.comp, hp]

theorem dkeys_dinsert_of_not_mem {α : Type} (d : Dict α) (k : String) (v : α)
    (h : dmem d k = false) : dkeys (dinsert d k v) = dkeys d ++ [k] := by
  simp [dinsert, h, dkeys]

theorem dkeys_dinsert_nodup {α : Type} (d : Dict α) (k : String) (v : α)
    (h : (dkeys d).Nodup) : (dkeys (dinsert d k v)).Nodup := by
  by_cases hmem : dmem d k
  · rw [dkeys_dinsert_of_mem d k v hmem]; exact h
  · rw [dkeys_dinsert_of_not_mem d k v (by simpa using hmem)]
    simp only [List.nodup_append, h, List.nodup_singleton, true_and]
    intro a ha hb
    simp only [List.mem_singleton] at hb
    subst hb
    exact absurd ((dmem_iff d a).mpr ha) (by simpa using hmem)

theorem mem_dinsert {α : Type} (d : Dict α) (k : String) (v : α)
    (p : String × α) (h : p ∈ dinsert d k v) : p = (k, v) ∨ p ∈ d := by
  by_cases hmem : dmem d k
  · simp only [dinsert, hmem, if_true, List.mem_map] at h
    obtain ⟨q, hq, he⟩ := h
    by_cases hqk : q.1 = k
    · left; simp [hqk] at he; exact he.symm
    · right; simp [hqk] at he; exact he ▸ hq
  · rw [dinsert_fresh d k v (by simpa using hmem)] at h
    rcases List.mem_append.mp h with h | h
    · exact Or.inr h
    · exact Or.inl (by simpa using h)

theorem dget_mem {α : Type} (d : Dict α) (k : String) (v : α)
    (h : dget d k = some v) : (k, v) ∈ d := by
  induction d with
  | nil => simp [dget_nil] at h
  | cons p rest ih =>
    rw [dget_cons] at h
    by_cases hp : p.1 = k
    · simp only [hp, if_true, Option.some.injEq] at h
      have hp2 : p = (k, v) := by
        obtain ⟨a, b⟩ := p
        simp only at hp h
        simp [hp, h]
      rw [← hp2]
      exact List.mem_cons_self p rest
    · simp only [hp, if_false] at h
      exact List.mem_cons_of_mem _ (ih h)

theorem foldl_dinsert_nodup {α : Type} (m acc : Dict α)
    (h : (dkeys (acc ++ m)).Nodup) :
    m.foldl (fun out kv => dinsert out kv.1 kv.2) acc = acc ++ m := by
  induction m generalizing acc with
  | nil => simp
  | cons kv rest ih =>
    have hfresh : dmem acc kv.1 = false := by
      rw [dkeys_append] at h
      rcases List.nodup_append.mp h with ⟨_, _, hdisj⟩
      by_contra hc
      have : dmem acc kv.1 = true := by simpa using hc
      exact hdisj ((dmem_iff acc kv.1).mp this) (by simp [dkeys])
    have step : dinsert acc kv.1 kv.2 = acc ++ [kv] := by
      rw [dinsert_fresh acc kv.1 kv.2 hfresh]
    rw [List.foldl_cons, step, ih (acc ++ [kv]) (by simpa using h)]
    simp

-- String and key-prefix facts.

theorem sdata_append (a b : String) : (a ++ b).data = a.data ++ b.data := by
  cases a; cases b; rfl

theorem smk_data (s : String) : String.mk s.data = s := by
  cases s; rfl

theorem isPrefixOf_iff (l₁ l₂ : List Char) :
    l₁.isPrefixOf l₂ = true ↔ ∃ t, l₁ ++ t = l₂ := by
  induction l₁ generalizing l₂ with
  | nil => simp [List.isPrefixOf]
  | cons a l ih =>
    cases l₂ with
    | nil => simp [List.isPrefixOf]
    | cons b m =>
      simp only [List.isPrefixOf, Bool.and_eq_true, beq_iff_eq, ih,
        List.cons_append, List.cons.injEq]
      constructor
      · rintro ⟨h, t, ht⟩
        exact ⟨t, h, ht⟩
      · rintro ⟨t, h, ht⟩
        exact ⟨h, t, ht⟩

theorem isPrefixOf_append_self (l t : List Char) : l.isPrefixOf (l ++ t) = true :=
  (isPrefixOf_iff l (l ++ t)).mpr ⟨t, rfl⟩

theorem no_common_ext {p q : List Char} (h1 : p.isPrefixOf q = false)
    (h2 : q.isPrefixOf p = false) (a b : List Char) : p ++ a ≠ q ++ b := by
  intro he
  rcases List.append_eq_append_iff.mp he with ⟨a', ha', _⟩ | ⟨c', hc', _⟩
  · have : p.isPrefixOf q = true := (isPrefixOf_iff p q).mpr ⟨a', ha'.symm⟩
    rw [h1] at this
    simp at this
  · have : q.isPrefixOf p = true := (isPrefixOf_iff q p).mpr ⟨c', hc'.symm⟩
    rw [h2] at this
    simp at this

theorem ne_key_of_ne_pref {p q : String} (h1 : p.data.isPrefixOf q.data = false)
    (h2 : q.data.isPrefixOf p.data = false) {a b : String} : p ++ a ≠ q ++ b := by
  intro he
  have hd := congrArg String.data he
  rw [sdata_append, sdata_append] at hd
  exact no_common_ext h1 h2 a.data b.data hd

theorem append_str_cancel (p : String) {a b : String} (h : p ++ a = p ++ b) :
    a = b := by
  have hd := congrArg String.data h
  rw [sdata_append, sdata_append] at hd
  have := List.append_cancel_left hd
  cases a; cases b; simp_all

theorem ne_key_of_ne_arg {p a b : String} (h : a ≠ b) : p ++ a ≠ p ++ b :=
  fun he => h (append_str_cancel p he)

theorem isPrefixOf_append_false {p q : String} (h1 : p.data.isPrefixOf q.data = false)
    (h2 : q.data.isPrefixOf p.data = false) (b : String) :
    p.data.isPrefixOf (q.data ++ b.data) = false := by
  by_contra hc
  have h3 : p.data.isPrefixOf (q.data ++ b.data) = true := by simpa using hc
  obtain ⟨t, ht⟩ := (isPrefixOf_iff _ _).mp h3
  exact no_common_ext h1 h2 t b.data ht

theorem drop_pref_append (p u : String) :
    String.mk ((p ++ u).data.drop p.data.length) = u := by
  rw [sdata_append, List.drop_left]

-- Structure of the blob built by `build_flat_from_languages`.

/-- The content-key suffix of a record. -/
def keySuffix (L : Language) : String :=
  pattern_to_key_suffix L.filenamePattern

/-- The nine content-key prefixes, in the order `build_flat_from_languages`
writes them. -/
def ninePrefixes : List String :=
  [K_KW1, K_KW2, K_KW3, K_OPS, K_SL, K_ML_START, K_ML_END, K_CASE, K_LEXER]

/-- The value `build_flat_from_languages` writes under each content prefix. -/
def contentValue (L : Language) (pref : String) : String :=
  if pref = K_KW1 then L.keywordsClass1
  else if pref = K_KW2 then L.keywordsClass2
  else if pref = K_KW3 then L.keywordsClass3
  else if pref = K_OPS then L.operatorSymbols
  else if pref = K_SL then L.singleLineCommentSymbols
  else if pref = K_ML_START then L.multiLineCommentStartSymbols
  else if pref = K_ML_END then L.multiLineCommentEndSymbols
  else if pref = K_CASE then caseValue L
  else lexerValue L

/-- The eleven keys one record contributes to the blob. -/
def blockKeys (L : Language) : List String :=
  [K_FILE_PATTERNS ++ L.uuid, K_DESC ++ L.uuid] ++
    ninePrefixes.map (fun p => p ++ keySuffix L)

/-- The eleven entries one record contributes, in insertion order. -/
def blockList (L : Language) : Flat :=
  [(K_FILE_PATTERNS ++ L.uuid, L.filenamePattern),
   (K_DESC ++ L.uuid, L.name),
   (K_KW1 ++ keySuffix L, L.keywordsClass1),
   (K_KW2 ++ keySuffix L, L.keywordsClass2),
   (K_KW3 ++ keySuffix L, L.keywordsClass3),
   (K_OPS ++ keySuffix L, L.operatorSymbols),
   (K_SL ++ keySuffix L, L.singleLineCommentSymbols),
   (K_ML_START ++ keySuffix L, L.multiLineCommentStartSymbols),
   (K_ML_END ++ keySuffix L, L.multiLineCommentEndSymbols),
   (K_CASE ++ keySuffix L, caseValue L),
   (K_LEXER ++ keySuffix L, lexerValue L)]

theorem dkeys_blockList (L : Language) : dkeys (blockList L) = blockKeys L := rfl

theorem dget_insertBlock (f : Flat) (L : Language) (key : String) :
    dget (insertBlock f L) key =
      if key = K_LEXER ++ keySuffix L then some (lexerValue L)
      else if key = K_CASE ++ keySuffix L then some (caseValue L)
      else if key = K_ML_END ++ keySuffix L then some L.multiLineCommentEndSymbols
      else if key = K_ML_START ++ keySuffix L then some L.multiLineCommentStartSymbols
      else if key = K_SL ++ keySuffix L then some L.singleLineCommentSymbols
      else if key = K_OPS ++ keySuffix L then some L.operatorSymbols
      else if key = K_KW3 ++ keySuffix L then some L.keywordsClass3
      else if key = K_KW2 ++ keySuffix L then some L.keywordsClass2
      else if key = K_KW1 ++ keySuffix L then some L.keywordsClass1
      else if key = K_DESC ++ L.uuid then some L.name
      else if key = K_FILE_PATTERNS ++ L.uuid then some L.filenamePattern
      else dget f key := by
  simp only [insertBlock, dget_dinsert, keySuffix]

/-- A content prefix collides with no other category's keys. -/
theorem pref_sep (pref : String) (hpref : pref ∈ ninePrefixes) :
    (∀ q ∈ ninePrefixes, q ≠ pref → ∀ a b : String, pref ++ a ≠ q ++ b) ∧
    (∀ a b : String, pref ++ a ≠ K_FILE_PATTERNS ++ b) ∧
    (∀ a b : String, pref ++ a ≠ K_DESC ++ b) := by
  refine ⟨?_, ?_, ?_⟩
  · intro q hq hqne a b
    fin_cases hpref <;> fin_cases hq <;>
      first
      | exact absurd rfl hqne
      | exact ne_key_of_ne_pref (by decide) (by decide)
  · intro a b
    fin_cases hpref <;> exact ne_key_of_ne_pref (by decide) (by decide)
  · intro a b
    fin_cases hpref <;> exact ne_key_of_ne_pref (by decide) (by decide)

theorem dget_insertBlock_of_ne (f : Flat) (L : Language) (key : String)
    (h1 : key ≠ K_FILE_PATTERNS ++ L.uuid) (h2 : key ≠ K_DESC ++ L.uuid)
    (h3 : ∀ p ∈ ninePrefixes, key ≠ p ++ keySuffix L) :
    dget (insertBlock f L) key = dget f key := by
  rw [dget_insertBlock]
  rw [if_neg (h3 K_LEXER (by decide)), if_neg (h3 K_CASE (by decide)),
    if_neg (h3 K_ML_END (by decide)), if_neg (h3 K_ML_START (by decide)),
    if_neg (h3 K_SL (by decide)), if_neg (h3 K_OPS (by decide)),
    if_neg (h3 K_KW3 (by decide)), if_neg (h3 K_KW2 (by decide)),
    if_neg (h3 K_KW1 (by decide)), if_neg h2, if_neg h1]

theorem dget_foldl_insertBlock_of_ne (key : String) :
    ∀ (langs : List Language) (f : Flat),
      (∀ M ∈ langs, key ≠ K_FILE_PATTERNS ++ M.uuid ∧ key ≠ K_DESC ++ M.uuid ∧
        ∀ p ∈ ninePrefixes, key ≠ p ++ keySuffix M) →
      dget (langs.foldl insertBlock f) key = dget f key := by
  intro langs
  induction langs with
  | nil => intro f _; rfl
  | cons M rest ih =>
    intro f h
    rw [List.foldl_cons]
    rw [ih (insertBlock f M) (fun M' h' => h M' (List.mem_cons_of_mem M h'))]
    obtain ⟨h1, h2, h3⟩ := h M (List.mem_cons_self M rest)
    exact dget_insertBlock_of_ne f M key h1 h2 h3

theorem dget_foldl_insertBlock_content (pref : String) (hpref : pref ∈ ninePrefixes)
    (L : Language) :
    ∀ (langs : List Language) (f : Flat), L ∈ langs →
      (∀ M ∈ langs, keySuffix M = keySuffix L → M = L) →
      dget (langs.foldl insertBlock f) (pref ++ keySuffix L) =
        some (contentValue L pref) := by
  obtain ⟨hsep, hfp, hdesc⟩ := pref_sep pref hpref
  intro langs
  induction langs with
  | nil => intro f h; cases h
  | cons M rest ih =>
    intro f hL huniq
    rw [List.foldl_cons]
    by_cases hmem : L ∈ rest
    · exact ih (insertBlock f M) hmem
        (fun M' h' he => huniq M' (List.mem_cons_of_mem M h') he)
    · have hLM : M = L := by
        rcases List.mem_cons.mp hL with h | h
        · exact h.symm
        · exact absurd h hmem
      subst hLM
      have hrest : dget (rest.foldl insertBlock (insertBlock f M)) (pref ++ keySuffix M) =
          dget (insertBlock f M) (pref ++ keySuffix M) := by
        apply dget_foldl_insertBlock_of_ne
        intro M' hM'
        have hM'ne : M' ≠ M := fun he => hmem (he ▸ hM')
        have hsne : keySuffix M ≠ keySuffix M' := fun he =>
          hM'ne (huniq M' (List.mem_cons_of_mem M hM') he.symm)
        refine ⟨hfp _ _, hdesc _ _, ?_⟩
        intro q hq
        by_cases hqp : q = pref
        · subst hqp
          exact ne_key_of_ne_arg hsne
        · exact hsep q hq hqp _ _
      rw [hrest, dget_insertBlock]
      have hpref' : pref = K_KW1 ∨ pref = K_KW2 ∨ pref = K_KW3 ∨ pref = K_OPS ∨
          pref = K_SL ∨ pref = K_ML_START ∨ pref = K_ML_END ∨ pref = K_CASE ∨
          pref = K_LEXER := by
        simpa [ninePrefixes] using hpref
      rcases hpref' with rfl | rfl | rfl | rfl | rfl | rfl | rfl | rfl | rfl <;>
        (repeat rw [if_neg (ne_key_of_ne_pref (by decide) (by decide))]) <;>
        rw [if_pos rfl] <;>
        simp [contentValue, K_KW1, K_KW2, K_KW3, K_OPS, K_SL, K_ML_START,
          K_ML_END, K_CASE, K_LEXER]

theorem dget_foldl_insertBlock_fp (L : Language) :
    ∀ (langs : List Language) (f : Flat), L ∈ langs →
      (∀ M ∈ langs, M.uuid = L.uuid → M = L) →
      dget (langs.foldl insertBlock f) (K_FILE_PATTERNS ++ L.uuid) =
        some L.filenamePattern := by
  intro langs
  induction langs with
  | nil => intro f h; cases h
  | cons M rest ih =>
    intro f hL huniq
    rw [List.foldl_cons]
    by_cases hmem : L ∈ rest
    · exact ih (insertBlock f M) hmem
        (fun M' h' he => huniq M' (List.mem_cons_of_mem M h') he)
    · have hLM : M = L := by
        rcases List.mem_cons.mp hL with h | h
        · exact h.symm
        · exact absurd h hmem
      subst hLM
      have hrest : dget (rest.foldl insertBlock (insertBlock f M)) (K_FILE_PATTERNS ++ M.uuid) =
          dget (insertBlock f M) (K_FILE_PATTERNS ++ M.uuid) := by
        apply dget_foldl_insertBlock_of_ne
        intro M' hM'
        have hM'ne : M' ≠ M := fun he => hmem (he ▸ hM')
        have hune : M.uuid ≠ M'.uuid := fun he =>
          hM'ne (huniq M' (List.mem_cons_of_mem M hM') he.symm)
        refine ⟨ne_key_of_ne_arg hune, ne_key_of_ne_pref (by decide) (by decide), ?_⟩
        intro q hq
        fin_cases hq <;> exact ne_key_of_ne_pref (by decide) (by decide)
      rw [hrest, dget_insertBlock]
      repeat rw [if_neg (ne_key_of_ne_pref (by decide) (by decide))]
      rw [if_pos rfl]

theorem dget_foldl_insertBlock_desc (L : Language) :
    ∀ (langs : List Language) (f : Flat), L ∈ langs →
      (∀ M ∈ langs, M.uuid = L.uuid → M = L) →
      dget (langs.foldl insertBlock f) (K_DESC ++ L.uuid) = some L.name := by
  intro langs
  induction langs with
  | nil => intro f h; cases h
  | cons M rest ih =>
    intro f hL huniq
    rw [List.foldl_cons]
    by_cases hmem : L ∈ rest
    · exact ih (insertBlock f M) hmem
        (fun M' h' he => huniq M' (List.mem_cons_of_mem M h') he)
    · have hLM : M = L := by
        rcases List.mem_cons.mp hL with h | h
        · exact h.symm
        · exact absurd h hmem
      subst hLM
      have hrest : dget (rest.foldl insertBlock (insertBlock f M)) (K_DESC ++ M.uuid) =
          dget (insertBlock f M) (K_DESC ++ M.uuid) := by
        apply dget_foldl_insertBlock_of_ne
        intro M' hM'
        have hM'ne : M' ≠ M := fun he => hmem (he ▸ hM')
        have hune : M.uuid ≠ M'.uuid := fun he =>
          hM'ne (huniq M' (List.mem_cons_of_mem M hM') he.symm)
        refine ⟨ne_key_of_ne_pref (by decide) (by decide), ne_key_of_ne_arg hune, ?_⟩
        intro q hq
        fin_cases hq <;> exact ne_key_of_ne_pref (by decide) (by decide)
      rw [hrest, dget_insertBlock]
      repeat rw [if_neg (ne_key_of_ne_pref (by decide) (by decide))]
      rw [if_pos rfl]

-- The blob as a concatenation of per-record blocks.

theorem insertBlock_eq_foldl (f : Flat) (L : Language) :
    insertBlock f L = (blockList L).foldl (fun d kv => dinsert d kv.1 kv.2) f := by
  simp only [insertBlock, blockList, List.foldl_cons, List.foldl_nil, keySuffix]

theorem blockKeys_nodup (L : Language) : (blockKeys L).Nodup := by
  simp only [blockKeys, ninePrefixes, List.map_cons, List.map_nil,
    List.cons_append, List.nil_append, List.Nodup]
  refine List.Pairwise.cons ?_ (List.Pairwise.cons ?_ (List.Pairwise.cons ?_
    (List.Pairwise.cons ?_ (List.Pairwise.cons ?_ (List.Pairwise.cons ?_
    (List.Pairwise.cons ?_ (List.Pairwise.cons ?_ (List.Pairwise.cons ?_
    (List.Pairwise.cons ?_ (List.Pairwise.cons ?_ List.Pairwise.nil))))))))))
  all_goals intro b hb
  all_goals fin_cases hb <;> exact ne_key_of_ne_pref (by decide) (by decide)

theorem blockKeys_disjoint (L M : Language) (hu : L.uuid ≠ M.uuid)
    (hs : keySuffix L ≠ keySuffix M) :
    ∀ k ∈ blockKeys L, k ∉ blockKeys M := by
  intro k hk
  fin_cases hk <;>
    (simp only [blockKeys, ninePrefixes, List.map_cons, List.map_nil,
      List.cons_append, List.nil_append, List.mem_cons, List.not_mem_nil,
      or_false, not_or]
     repeat' apply And.intro) <;>
    first
    | exact ne_key_of_ne_pref (by decide) (by decide)
    | exact ne_key_of_ne_arg hu
    | exact ne_key_of_ne_arg hs

/-- The block concatenation that `build_flat_from_languages` produces when no
keys collide. -/
def blocksConcat : List Language → Flat
  | [] => []
  | L :: rest => blockList L ++ blocksConcat rest

theorem mem_dkeys_blocksConcat (k : String) :
    ∀ langs : List Language,
      (k ∈ dkeys (blocksConcat langs) ↔ ∃ M ∈ langs, k ∈ blockKeys M) := by
  intro langs
  induction langs with
  | nil => simp [blocksConcat, dkeys]
  | cons L rest ih =>
    simp only [blocksConcat, dkeys_append, List.mem_append, ih, dkeys_blockList,
      List.mem_cons]
    constructor
    · rintro (h | ⟨M, hM, hk⟩)
      · exact ⟨L, Or.inl rfl, h⟩
      · exact ⟨M, Or.inr hM, hk⟩
    · rintro ⟨M, hM | hM, hk⟩
      · exact Or.inl (hM ▸ hk)
      · exact Or.inr ⟨M, hM, hk⟩

theorem dkeys_blocksConcat_nodup :
    ∀ langs : List Language,
      (langs.map (fun L => L.uuid)).Nodup →
      (langs.map keySuffix).Nodup →
      (dkeys (blocksConcat langs)).Nodup := by
  intro langs
  induction langs with
  | nil => intro _ _; simp [blocksConcat, dkeys]
  | cons L rest ih =>
    intro hu hs
    simp only [List.map_cons, List.nodup_cons] at hu hs
    rw [blocksConcat, dkeys_append, dkeys_blockList]
    rw [List.nodup_append]
    refine ⟨blockKeys_nodup L, ih hu.2 hs.2, ?_⟩
    intro k hk hk'
    obtain ⟨M, hM, hkM⟩ := (mem_dkeys_blocksConcat k rest).mp hk'
    have hune : L.uuid ≠ M.uuid := fun he =>
      hu.1 (List.mem_map.mpr ⟨M, hM, he.symm⟩)
    have hsne : keySuffix L ≠ keySuffix M := fun he =>
      hs.1 (List.mem_map.mpr ⟨M, hM, he.symm⟩)
    exact blockKeys_disjoint L M hune hsne k hk hkM

theorem foldl_insertBlock_eq :
    ∀ (langs : List Language) (f : Flat),
      (dkeys (f ++ blocksConcat langs)).Nodup →
      langs.foldl insertBlock f = f ++ blocksConcat langs := by
  intro langs
  induction langs with
  | nil => intro f _; simp [blocksConcat]
  | cons L rest ih =>
    intro f h
    rw [List.foldl_cons, insertBlock_eq_foldl]
    have hsub : (dkeys (f ++ blockList L)).Nodup := by
      have : dkeys (f ++ blockList L) <+:
          dkeys (f ++ (blockList L ++ blocksConcat rest)) := by
        simp [dkeys_append, List.append_assoc]
      exact (h.sublist (this.sublist))
    rw [foldl_dinsert_nodup (blockList L) f hsub]
    have := ih (f ++ blockList L) (by
      rw [blocksConcat] at h
      simpa [List.append_assoc] using h)
    rw [this, blocksConcat]
    simp [List.append_assoc]

theorem build_eq_blocksConcat (langs : List Language)
    (hu : (langs.map (fun L => L.uuid)).Nodup)
    (hs : (langs.map keySuffix).Nodup) :
    build_flat_from_languages langs = blocksConcat langs := by
  have := foldl_insertBlock_eq langs []
    (by simpa using dkeys_blocksConcat_nodup langs hu hs)
  simpa [build_flat_from_languages] using this

-- Key-subset facts (no uniqueness assumptions).

theorem mem_dkeys_dinsert {α : Type} (d : Dict α) (k : String) (v : α)
    (k' : String) (h : k' ∈ dkeys (dinsert d k v)) : k' = k ∨ k' ∈ dkeys d := by
  by_cases hmem : dmem d k
  · rw [dkeys_dinsert_of_mem d k v hmem] at h
    exact Or.inr h
  · rw [dkeys_dinsert_of_not_mem d k v (by simpa using hmem)] at h
    rcases List.mem_append.mp h with h | h
    · exact Or.inr h
    · exact Or.inl (by simpa using h)

theorem mem_dkeys_foldl_dinsert {α : Type} (entries : Dict α) :
    ∀ (f : Dict α) (k' : String),
      k' ∈ dkeys (entries.foldl (fun d kv => dinsert d kv.1 kv.2) f) →
      k' ∈ dkeys f ∨ k' ∈ dkeys entries := by
  induction entries with
  | nil => intro f k' h; exact Or.inl h
  | cons kv rest ih =>
    intro f k' h
    rw [List.foldl_cons] at h
    rcases ih (dinsert f kv.1 kv.2) k' h with h' | h'
    · rcases mem_dkeys_dinsert f kv.1 kv.2 k' h' with h'' | h''
      · exact Or.inr (by simp [dkeys, h''])
      · exact Or.inl h''
    · exact Or.inr (by simp [dkeys] at h' ⊢; exact Or.inr h')

theorem mem_dkeys_insertBlock (f : Flat) (L : Language) (k : String)
    (h : k ∈ dkeys (insertBlock f L)) : k ∈ dkeys f ∨ k ∈ blockKeys L := by
  rw [insertBlock_eq_foldl] at h
  rcases mem_dkeys_foldl_dinsert (blockList L) f k h with h' | h'
  · exact Or.inl h'
  · exact Or.inr (dkeys_blockList L ▸ h')

theorem mem_dkeys_build (k : String) :
    ∀ (langs : List Language) (f : Flat),
      k ∈ dkeys (langs.foldl insertBlock f) →
      k ∈ dkeys f ∨ ∃ L ∈ langs, k ∈ blockKeys L := by
  intro langs
  induction langs with
  | nil => intro f h; exact Or.inl h
  | cons L rest ih =>
    intro f h
    rw [List.foldl_cons] at h
    rcases ih (insertBlock f L) h with h' | ⟨M, hM, hk⟩
    · rcases mem_dkeys_insertBlock f L k h' with h'' | h''
      · exact Or.inl h''
      · exact Or.inr ⟨L, List.mem_cons_self L rest, h''⟩
    · exact Or.inr ⟨M, List.mem_cons_of_mem L hM, hk⟩

-- Round trip of the JSON codec.

theorem escBody_nil : escBody [] = [] := rfl

theorem escBody_cons (c : Char) (s : List Char) :
    escBody (c :: s) = escChar c ++ escBody s := rfl

theorem hexVal_hexDigit (n : Nat) (h : n < 16) : hexVal (hexDigit n) = some n := by
  interval_cases n <;> decide

theorem parseStrBody_escBody (s : List Char) (rest : List Char) :
    parseStrBody (escBody s ++ '"' :: rest) = some (s, rest) := by
  induction s with
  | nil =>
    rw [escBody_nil, List.nil_append, parseStrBody.eq_def]
    simp
  | cons c s ih =>
    rw [escBody_cons, List.append_assoc]
    by_cases h1 : c = '"'
    · subst h1
      rw [show escChar '"' = ['\\', '"'] from by decide]
      simp only [List.cons_append, List.nil_append]
      rw [parseStrBody.eq_def]
      simp [unescChar, ih]
    · by_cases h2 : c = '\\'
      · subst h2
        rw [show escChar '\\' = ['\\', '\\'] from by decide]
        simp only [List.cons_append, List.nil_append]
        rw [parseStrBody.eq_def]
        simp [unescChar, ih]
      · by_cases h3 : c = Char.ofNat 8
        · subst h3
          rw [show escChar (Char.ofNat 8) = ['\\', 'b'] from by decide]
          simp only [List.cons_append, List.nil_append]
          rw [parseStrBody.eq_def]
          simp [unescChar, ih]
        · by_cases h4 : c = Char.ofNat 9
          · subst h4
            rw [show escChar (Char.ofNat 9) = ['\\', 't'] from by decide]
            simp only [List.cons_append, List.nil_append]
            rw [parseStrBody.eq_def]
            simp [unescChar, ih]
          · by_cases h5 : c = Char.ofNat 10
            · subst h5
              rw [show escChar (Char.ofNat 10) = ['\\', 'n'] from by decide]
              simp only [List.cons_append, List.nil_append]
              rw [parseStrBody.eq_def]
              simp [unescChar, ih]
            · by_cases h6 : c = Char.ofNat 12
              · subst h6
                rw [show escChar (Char.ofNat 12) = ['\\', 'f'] from by decide]
                simp only [List.cons_append, List.nil_append]
                rw [parseStrBody.eq_def]
                simp [unescChar, ih]
              · by_cases h7 : c = Char.ofNat 13
                · subst h7
                  rw [show escChar (Char.ofNat 13) = ['\\', 'r'] from by decide]
                  simp only [List.cons_append, List.nil_append]
                  rw [parseStrBody.eq_def]
                  simp [unescChar, ih]
                · by_cases h8 : c.toNat < 32
                  · have he : escChar c = ['\\', 'u', '0', '0',
                        hexDigit (c.toNat / 16), hexDigit (c.toNat % 16)] := by
                      simp [escChar, h1, h2, h3, h4, h5, h6, h7, h8]
                    have hd1 : c.toNat / 16 < 16 := by omega
                    have hd0 : c.toNat % 16 < 16 := Nat.mod_lt _ (by norm_num)
                    rw [he]
                    simp only [List.cons_append, List.nil_append]
                    rw [parseStrBody.eq_def]
                    norm_num [hexVal_hexDigit _ hd1, hexVal_hexDigit _ hd0, ih,
                      (by decide : hexVal '0' = some 0)]
                    rw [show (c.toNat / 16) * 16 + c.toNat % 16 = c.toNat by omega]
                    simp
                  · have he : escChar c = [c] := by
                      simp [escChar, h1, h2, h3, h4, h5, h6, h7, h8]
                    rw [he]
                    simp only [List.cons_append, List.nil_append]
                    rw [parseStrBody.eq_def]
                    simp [h1, h2, ih]

theorem skipWs_cons_of_not (c : Char) (l : List Char) (h : jWs c = false) :
    skipWs (c :: l) = c :: l := by
  simp [skipWs, List.dropWhile_cons, h]

theorem skipWs_append_ws (w : List Char) (h : ∀ c ∈ w, jWs c = true) :
    ∀ l : List Char, skipWs (w ++ l) = skipWs l := by
  induction w with
  | nil => intro l; rfl
  | cons c w ih =>
    intro l
    simp only [List.cons_append, skipWs, List.dropWhile_cons,
      h c (List.mem_cons_self c w), if_true]
    exact ih (fun c' hc' => h c' (List.mem_cons_of_mem c hc')) l

theorem emitPairs_head (kvSep pairSep closing : List Char) (kv : String × String)
    (rest : List (String × String)) :
    ∃ tail, emitPairs kvSep pairSep closing (kv :: rest) = '"' :: tail := by
  obtain ⟨k, v⟩ := kv
  cases rest with
  | nil => exact ⟨_, rfl⟩
  | cons r rs => exact ⟨_, rfl⟩

theorem parsePairs_emitPairs :
    ∀ (m : List (String × String)) (fuel : Nat) (t1 t2 w : List Char),
      (∀ c ∈ t1, jWs c = true) → (∀ c ∈ t2, jWs c = true) →
      (∀ c ∈ w, jWs c = true) →
      m ≠ [] → m.length ≤ fuel →
      parsePairs fuel (emitPairs (':' :: t1) (',' :: t2) (w ++ ['}']) m) =
        some (m, []) := by
  intro m
  induction m with
  | nil => intro fuel t1 t2 w _ _ _ hne _; exact absurd rfl hne
  | cons kv rest ih =>
    intro fuel t1 t2 w h1 h2 h3 _ hlen
    obtain ⟨k, v⟩ := kv
    cases fuel with
    | zero => simp at hlen
    | succ fuel =>
      cases rest with
      | nil =>
        show parsePairs (fuel + 1)
          (itemChars (':' :: t1) k v ++ (w ++ ['}'])) = _
        simp only [itemChars, List.cons_append, List.nil_append,
          List.append_assoc]
        rw [parsePairs.eq_def]
        simp [parseStrBody_escBody, skipWs_append_ws t1 h1,
          skipWs_append_ws w h3, skipWs_cons_of_not, jWs, smk_data]
      | cons r rs =>
        show parsePairs (fuel + 1)
          (itemChars (':' :: t1) k v ++
            ((',' :: t2) ++ emitPairs (':' :: t1) (',' :: t2) (w ++ ['}']) (r :: rs))) = _
        obtain ⟨tail, htail⟩ :=
          emitPairs_head (':' :: t1) (',' :: t2) (w ++ ['}']) r rs
        have hskip : skipWs (emitPairs (':' :: t1) (',' :: t2) (w ++ ['}']) (r :: rs)) =
            emitPairs (':' :: t1) (',' :: t2) (w ++ ['}']) (r :: rs) := by
          rw [htail]
          exact skipWs_cons_of_not '"' _ (by decide)
        have hih := ih fuel t1 t2 w h1 h2 h3 (by simp) (by simpa using hlen)
        simp only [itemChars, List.cons_append, List.nil_append,
          List.append_assoc]
        rw [parsePairs.eq_def]
        simp [parseStrBody_escBody, skipWs_append_ws t1 h1,
          skipWs_append_ws t2 h2, skipWs_cons_of_not, jWs, hskip, hih, smk_data]

theorem emitPairs_length (kvSep pairSep closing : List Char) :
    ∀ m : List (String × String),
      m.length ≤ (emitPairs kvSep pairSep closing m).length := by
  intro m
  induction m with
  | nil => simp [emitPairs]
  | cons kv rest ih =>
    obtain ⟨k, v⟩ := kv
    cases rest with
    | nil => simp [emitPairs, itemChars]
    | cons r rs =>
      have h : (emitPairs kvSep pairSep closing ((k, v) :: r :: rs)) =
          itemChars kvSep k v ++ (pairSep ++ emitPairs kvSep pairSep closing (r :: rs)) := rfl
      rw [h]
      simp only [List.length_append, List.length_cons, itemChars]
      simp at ih ⊢
      omega

theorem dropWhile_append_all (p : Char → Bool) (w : List Char)
    (h : ∀ c ∈ w, p c = true) :
    ∀ l : List Char, List.dropWhile p (w ++ l) = List.dropWhile p l := by
  induction w with
  | nil => intro l; rfl
  | cons c w ih =>
    intro l
    simp only [List.cons_append, List.dropWhile_cons,
      h c (List.mem_cons_self c w), if_true]
    exact ih (fun c' hc' => h c' (List.mem_cons_of_mem c hc')) l


theorem parseFlatObj_dump (m : List (String × String)) (hm : m ≠ [])
    (lead t1 t2 w : List Char)
    (hlead : ∀ c ∈ lead, jWs c = true) (h1 : ∀ c ∈ t1, jWs c = true)
    (h2 : ∀ c ∈ t2, jWs c = true) (h3 : ∀ c ∈ w, jWs c = true) :
    parseFlatObj (String.mk ('{' ::
      (lead ++ emitPairs (':' :: t1) (',' :: t2) (w ++ ['}']) m))) = some m := by
  obtain ⟨kv, rest, rfl⟩ := List.exists_cons_of_ne_nil hm
  obtain ⟨tail, htail⟩ := emitPairs_head (':' :: t1) (',' :: t2) (w ++ ['}']) kv rest
  have hfuel : (kv :: rest).length ≤
      (emitPairs (':' :: t1) (',' :: t2) (w ++ ['}']) (kv :: rest)).length + 1 :=
    Nat.le_succ_of_le (emitPairs_length _ _ _ _)
  have hpp := parsePairs_emitPairs (kv :: rest) _ t1 t2 w h1 h2 h3 hm hfuel
  rw [htail] at hpp
  unfold parseFlatObj
  have hdata : (String.mk ('{' ::
      (lead ++ emitPairs (':' :: t1) (',' :: t2) (w ++ ['}']) (kv :: rest)))).data =
      '{' :: (lead ++ emitPairs (':' :: t1) (',' :: t2) (w ++ ['}']) (kv :: rest)) := rfl
  rw [hdata, skipWs_cons_of_not '{' _ (by decide)]
  simp only [htail, skipWs_append_ws lead hlead,
    skipWs_cons_of_not '"' _ (by decide)]
  simp only [List.length_cons] at hpp
  simp [hpp, skipWs]

theorem load_json_dump (m : Flat) (hnodup : (dkeys m).Nodup) (no_header : Bool) :
    load_json_with_optional_header (dump_araxis_json m no_header) = some m := by
  have hcollapse : m.foldl (fun out kv => dinsert out kv.1 kv.2) [] = m := by
    have := foldl_dinsert_nodup m [] (by simpa using hnodup)
    simpa using this
  by_cases hm : m = []
  · subst hm
    cases no_header <;> decide
  · obtain ⟨kv0, rest0, rfl⟩ := List.exists_cons_of_ne_nil hm
    cases no_header with
    | true =>
      have hparse := parseFlatObj_dump (kv0 :: rest0) (by simp)
        ['\n', ' ', ' '] [' '] ['\n', ' ', ' '] ['\n']
        (by decide) (by decide) (by decide) (by decide)
      have hshape : dump_araxis_json (kv0 :: rest0) true =
          String.mk ('{' :: (['\n', ' ', ' '] ++
            emitPairs (':' :: [' ']) (',' :: ['\n', ' ', ' '])
              (['\n'] ++ ['}']) (kv0 :: rest0))) := rfl
      rw [hshape]
      unfold load_json_with_optional_header
      simp only [List.cons_append, List.nil_append] at hparse
      simp [hparse, hcollapse]
    | false =>
      have hparse := parseFlatObj_dump (kv0 :: rest0) (by simp)
        [] [] [] [] (by decide) (by decide) (by decide) (by decide)
      have hshape : dump_araxis_json (kv0 :: rest0) false =
          "json: " ++ String.mk ('{' :: ([] ++
            emitPairs (':' :: []) (',' :: []) ([] ++ ['}']) (kv0 :: rest0))) := rfl
      rw [hshape]
      unfold load_json_with_optional_header
      simp only [List.cons_append, List.nil_append] at hparse
      simp [sdata_append, hparse, hcollapse]

theorem jWs_hexDigit (n : Nat) (h : n < 16) : jWs (hexDigit n) = false := by
  interval_cases n <;> decide

theorem jWs_escChar (c : Char) (h : jWs c = false) :
    ∀ c' ∈ escChar c, jWs c' = false := by
  intro c' hc'
  unfold escChar at hc'
  split_ifs at hc' with h1 h2 h3 h4 h5 h6 h7 h8 <;>
    fin_cases hc' <;>
    first
    | decide
    | exact h
    | exact jWs_hexDigit _ (by omega)

theorem jWs_escBody (s : List Char) (h : ∀ c ∈ s, jWs c = false) :
    ∀ c' ∈ escBody s, jWs c' = false := by
  induction s with
  | nil => simp [escBody_nil]
  | cons c s ih =>
    intro c' hc'
    rw [escBody_cons] at hc'
    rcases List.mem_append.mp hc' with hc' | hc'
    · exact jWs_escChar c (h c (List.mem_cons_self c s)) c' hc'
    · exact ih (fun a ha => h a (List.mem_cons_of_mem c ha)) c' hc'

theorem itemChars_no_ws (kvSep : List Char) (hsep : ∀ c ∈ kvSep, jWs c = false)
    (k v : String) (hk : ∀ c ∈ k.data, jWs c = false)
    (hv : ∀ c ∈ v.data, jWs c = false) :
    ∀ c ∈ itemChars kvSep k v, jWs c = false := by
  intro c hc
  unfold itemChars at hc
  rcases List.mem_cons.mp hc with rfl | hc
  · decide
  rcases List.mem_append.mp hc with hc | hc
  · exact jWs_escBody _ hk _ hc
  rcases List.mem_cons.mp hc with rfl | hc
  · decide
  rcases List.mem_append.mp hc with hc | hc
  · exact hsep _ hc
  rcases List.mem_cons.mp hc with rfl | hc
  · decide
  rcases List.mem_append.mp hc with hc | hc
  · exact jWs_escBody _ hv _ hc
  · simp only [List.mem_singleton] at hc
    subst hc
    decide

theorem emitPairs_no_ws (kvSep pairSep closing : List Char)
    (hs1 : ∀ c ∈ kvSep, jWs c = false) (hs2 : ∀ c ∈ pairSep, jWs c = false)
    (hs3 : ∀ c ∈ closing, jWs c = false) :
    ∀ m : List (String × String),
      (∀ kv ∈ m, (∀ c ∈ kv.1.data, jWs c = false) ∧
        (∀ c ∈ kv.2.data, jWs c = false)) →
      ∀ c ∈ emitPairs kvSep pairSep closing m, jWs c = false := by
  intro m
  induction m with
  | nil => intro _ c hc; exact hs3 c hc
  | cons kv rest ih =>
    obtain ⟨k, v⟩ := kv
    intro h c hc
    have hkv := h (k, v) (List.mem_cons_self _ rest)
    cases rest with
    | nil =>
      rcases List.mem_append.mp hc with hc | hc
      · exact itemChars_no_ws kvSep hs1 k v hkv.1 hkv.2 c hc
      · exact hs3 c hc
    | cons r rs =>
      have hshape : emitPairs kvSep pairSep closing ((k, v) :: r :: rs) =
          itemChars kvSep k v ++ (pairSep ++ emitPairs kvSep pairSep closing (r :: rs)) := rfl
      rw [hshape] at hc
      rcases List.mem_append.mp hc with hc | hc
      · exact itemChars_no_ws kvSep hs1 k v hkv.1 hkv.2 c hc
      rcases List.mem_append.mp hc with hc | hc
      · exact hs2 c hc
      · exact ih (fun a ha => h a (List.mem_cons_of_mem _ ha)) c hc

theorem dumpsCompact_no_ws (m : Flat)
    (h : ∀ kv ∈ m, (∀ c ∈ kv.1.data, jWs c = false) ∧
      (∀ c ∈ kv.2.data, jWs c = false)) :
    ∀ c ∈ (dumpsCompact m).data, jWs c = false := by
  cases m with
  | nil =>
    intro c hc
    have : (dumpsCompact []).data = ['{', '}'] := rfl
    rw [this] at hc
    fin_cases hc <;> decide
  | cons kv rest =>
    intro c hc
    have : (dumpsCompact (kv :: rest)).data =
        '{' :: emitPairs [':'] [','] ['}'] (kv :: rest) := rfl
    rw [this] at hc
    rcases List.mem_cons.mp hc with rfl | hc
    · decide
    · exact emitPairs_no_ws [':'] [','] ['}'] (by decide) (by decide) (by decide)
        (kv :: rest) h c hc

/-- Claim C7: encoding with the header produces exactly `json: ` followed by
compact JSON with no extraneous whitespace; encoding without the header
produces 2-space-indented JSON with no prefix; decoding either encoded form
returns the original mapping. -/
theorem c7_codec_header (m : Flat) (hnodup : (dkeys m).Nodup) :
    dump_araxis_json m false = "json: " ++ dumpsCompact m ∧
    ((∀ kv ∈ m, (∀ c ∈ kv.1.data, jWs c = false) ∧
        (∀ c ∈ kv.2.data, jWs c = false)) →
      ∀ c ∈ (dumpsCompact m).data, jWs c = false) ∧
    (dump_araxis_json m true).data.head? = some '{' ∧
    (m ≠ [] → (dump_araxis_json m true).data.take 4 = ['{', '\n', ' ', ' ']) ∧
    load_json_with_optional_header (dump_araxis_json m false) = some m ∧
    load_json_with_optional_header (dump_araxis_json m true) = some m := by
  refine ⟨rfl, dumpsCompact_no_ws m, ?_, ?_, load_json_dump m hnodup false,
    load_json_dump m hnodup true⟩
  · cases m with
    | nil => rfl
    | cons kv rest => rfl
  · intro hm
    obtain ⟨kv, rest, rfl⟩ := List.exists_cons_of_ne_nil hm
    rfl

/-- Witness for C7 at a concrete mapping. -/
theorem c7_codec_header_witness :
    load_json_with_optional_header (dump_araxis_json [("a", "b")] false) =
      some [("a", "b")] ∧
    load_json_with_optional_header (dump_araxis_json [("a", "b")] true) =
      some [("a", "b")] :=
  ⟨(c7_codec_header [("a", "b")] (by decide)).2.2.2.2.1,
   (c7_codec_header [("a", "b")] (by decide)).2.2.2.2.2⟩

/-- Modelled on the spec wording (§4.1) for comparison with the
implementation: split on `;`, strip `*.` or `*` from the first segment,
rejoin. -/
def deriveSuffixSpec (pattern : String) : String :=
  let parts := splitBy (fun c => c == ';') pattern.data
  match parts with
  | [] => String.mk (joinSemis [])
  | first :: remaining =>
    let first' :=
      if first.take 2 = ['*', '.'] then first.drop 2
      else if first.take 1 = ['*'] then first.drop 1
      else first
    String.mk (joinSemis (first' :: remaining))

/-- Claim C6: `pattern_to_key_suffix` splits on `;`, strips `*.` or `*` from
the first segment only, rejoins with `;`, is total, and satisfies the
spec's example equations. -/
theorem c6_suffix_derivation :
    (∀ s : String, pattern_to_key_suffix s = deriveSuffixSpec s) ∧
    pattern_to_key_suffix "" = "" ∧
    pattern_to_key_suffix "*.cpp" = "cpp" ∧
    pattern_to_key_suffix "*cpp" = "cpp" ∧
    pattern_to_key_suffix "cpp" = "cpp" ∧
    pattern_to_key_suffix "*.h;*.hpp" = "h;*.hpp" := by
  refine ⟨?_, by decide, by decide, by decide, by decide, by decide⟩
  intro s
  unfold pattern_to_key_suffix deriveSuffixSpec
  cases hsp : splitBy (fun c => c == ';') s.data with
  | nil => rfl
  | cons p0 rest =>
    rcases p0 with _ | ⟨c1, _ | ⟨c2, t⟩⟩
    · simp
    · by_cases hc : c1 = '*' <;> simp [hc]
    · by_cases hc1 : c1 = '*'
      · by_cases hc2 : c2 = '.' <;> simp [hc1, hc2]
      · simp [hc1]

-- Parsing the built blob back into records.

theorem from_flat_filenamePattern (u fp : String) (flat : Flat) :
    (Language.from_flat u fp flat).filenamePattern = fp := rfl

theorem parseStep_skip (flat : Flat) (acc : Dict Language × Flat)
    (k v : String) (h : K_FILE_PATTERNS.data.isPrefixOf k.data = false) :
    parseStep flat acc (k, v) = acc := by
  simp [parseStep, h]

theorem parseStep_skip_key (flat : Flat) (acc : Dict Language × Flat)
    (q arg v : String) (h1 : K_FILE_PATTERNS.data.isPrefixOf q.data = false)
    (h2 : q.data.isPrefixOf K_FILE_PATTERNS.data = false) :
    parseStep flat acc (q ++ arg, v) = acc := by
  apply parseStep_skip
  rw [sdata_append]
  exact isPrefixOf_append_false h1 h2 arg

theorem parseStep_fp (flat : Flat) (acc : Dict Language × Flat) (u v : String) :
    parseStep flat acc (K_FILE_PATTERNS ++ u, v) =
      (dinsert acc.1 u (Language.from_flat u v flat),
       if v ≠ "" then dinsert acc.2 v u else acc.2) := by
  unfold parseStep
  rw [if_pos (by rw [sdata_append]; exact isPrefixOf_append_self _ _)]
  simp only [drop_pref_append, from_flat_filenamePattern]

theorem parse_foldl_block (flat : Flat) (acc : Dict Language × Flat) (L : Language) :
    (blockList L).foldl (parseStep flat) acc =
      parseStep flat acc (K_FILE_PATTERNS ++ L.uuid, L.filenamePattern) := by
  simp only [blockList, List.foldl_cons, List.foldl_nil]
  repeat rw [parseStep_skip_key _ _ _ _ _ (by decide) (by decide)]

theorem parse_foldl_blocksConcat (flat : Flat) :
    ∀ (langs : List Language) (acc : Dict Language × Flat),
      (blocksConcat langs).foldl (parseStep flat) acc =
        langs.foldl (fun acc L =>
          parseStep flat acc (K_FILE_PATTERNS ++ L.uuid, L.filenamePattern)) acc := by
  intro langs
  induction langs with
  | nil => intro acc; rfl
  | cons L rest ih =>
    intro acc
    show (blockList L ++ blocksConcat rest).foldl (parseStep flat) acc = _
    rw [List.foldl_append, parse_foldl_block, List.foldl_cons]
    exact ih _

theorem nodup_map_inj {α β : Type} (f : α → β) :
    ∀ l : List α, (l.map f).Nodup →
      ∀ a ∈ l, ∀ b ∈ l, f a = f b → a = b := by
  intro l
  induction l with
  | nil => intro _ a ha; cases ha
  | cons x rest ih =>
    intro h a ha b hb he
    simp only [List.map_cons, List.nodup_cons] at h
    rcases List.mem_cons.mp ha with ha' | ha'
    · rcases List.mem_cons.mp hb with hb' | hb'
      · rw [ha', hb']
      · subst ha'
        exact absurd (List.mem_map.mpr ⟨b, hb', he.symm⟩) h.1
    · rcases List.mem_cons.mp hb with hb' | hb'
      · subst hb'
        exact absurd (List.mem_map.mpr ⟨a, ha', he⟩) h.1
      · exact ih h.2 a ha' b hb' he

theorem parse_records (flat : Flat) :
    ∀ (langs : List Language) (acc : Dict Language × Flat),
      (langs.map (fun L => L.uuid)).Nodup →
      (∀ L ∈ langs, dmem acc.1 L.uuid = false) →
      (langs.foldl (fun acc L =>
        parseStep flat acc (K_FILE_PATTERNS ++ L.uuid, L.filenamePattern)) acc).1 =
        acc.1 ++ langs.map (fun L =>
          (L.uuid, Language.from_flat L.uuid L.filenamePattern flat)) := by
  intro langs
  induction langs with
  | nil => intro acc _ _; simp
  | cons L rest ih =>
    intro acc hu hfresh
    simp only [List.map_cons, List.nodup_cons] at hu
    rw [List.foldl_cons, parseStep_fp]
    have hstep : dinsert acc.1 L.uuid (Language.from_flat L.uuid L.filenamePattern flat) =
        acc.1 ++ [(L.uuid, Language.from_flat L.uuid L.filenamePattern flat)] :=
      dinsert_fresh _ _ _ (hfresh L (List.mem_cons_self L rest))
    have hP : ∀ M ∈ rest,
        dmem (dinsert acc.1 L.uuid (Language.from_flat L.uuid L.filenamePattern flat),
          if L.filenamePattern ≠ "" then dinsert acc.2 L.filenamePattern L.uuid
          else acc.2).1 M.uuid = false := by
      intro M hM
      show dmem (dinsert acc.1 L.uuid
        (Language.from_flat L.uuid L.filenamePattern flat)) M.uuid = false
      rw [hstep, dmem_append, hfresh M (List.mem_cons_of_mem L hM)]
      have hne : L.uuid ≠ M.uuid := fun he => hu.1 (List.mem_map.mpr ⟨M, hM, he.symm⟩)
      simp [dmem, hne]
    rw [ih _ hu.2 hP]
    show dinsert acc.1 L.uuid (Language.from_flat L.uuid L.filenamePattern flat) ++ _ = _
    rw [hstep]
    simp [List.append_assoc]

-- Invariants of records produced by the directory loader.

theorem loadOneFile_ok_props (n : String) (o : JObj) (L0 : Language)
    (h : loadOneFile n o = .ok L0) :
    (L0.isCaseSensitive = "true" ∨ L0.isCaseSensitive = "false") ∧
    L0.filenamePattern ≠ "" ∧ L0.lexer ≠ "" := by
  unfold loadOneFile at h
  cases hf : requiredFields.find? (fun r => !(o.any (fun p => p.1 == r))) with
  | some r =>
    simp only [hf] at h
    exact Except.noConfusion h
  | none =>
    simp only [hf] at h
    have hcase : ∀ h1 : ¬(!decide
        (pyLower (pyStr ((jget o "isCaseSensitive").getD (JVal.jstr "false"))) = "true" ∨
          pyLower (pyStr ((jget o "isCaseSensitive").getD (JVal.jstr "false"))) = "false")) = true,
        (pyLower (pyStr ((jget o "isCaseSensitive").getD (JVal.jstr "false"))) = "true" ∨
          pyLower (pyStr ((jget o "isCaseSensitive").getD (JVal.jstr "false"))) = "false") := by
      intro h1
      have hd : decide
          (pyLower (pyStr ((jget o "isCaseSensitive").getD (JVal.jstr "false"))) = "true" ∨
            pyLower (pyStr ((jget o "isCaseSensitive").getD (JVal.jstr "false"))) = "false") = true := by
        revert h1
        cases decide
          (pyLower (pyStr ((jget o "isCaseSensitive").getD (JVal.jstr "false"))) = "true" ∨
            pyLower (pyStr ((jget o "isCaseSensitive").getD (JVal.jstr "false"))) = "false") <;> simp
      exact of_decide_eq_true hd
    split_ifs at h with ha hb hc
    all_goals
      first
      | exact Except.noConfusion h
      | (simp only [Except.ok.injEq] at h
         subst h
         refine ⟨hcase ha, hb, ?_⟩
         first
         | exact hc
         | simp)

theorem loadFiles_ok_props :
    ∀ (fs : List (String × JObj)) (ls : List Language),
      loadFiles fs = .ok ls →
      ∀ L ∈ ls, (L.isCaseSensitive = "true" ∨ L.isCaseSensitive = "false") ∧
        L.filenamePattern ≠ "" ∧ L.lexer ≠ "" := by
  intro fs
  induction fs with
  | nil =>
    intro ls h L hL
    simp only [loadFiles, Except.ok.injEq] at h
    subst h
    cases hL
  | cons f rest ih =>
    intro ls h L hL
    obtain ⟨n, o⟩ := f
    unfold loadFiles at h
    cases h0 : loadOneFile n o with
    | error e => rw [h0] at h; simp at h
    | ok L0 =>
      rw [h0] at h
      cases h1 : loadFiles rest with
      | error e => rw [h1] at h; simp at h
      | ok ls' =>
        rw [h1] at h
        simp only [Except.ok.injEq] at h
        subst h
        rcases List.mem_cons.mp hL with rfl | hL'
        · exact loadOneFile_ok_props n o L h0
        · exact ih ls' h1 L hL'

theorem load_dir_props (listing : List (String × JObj)) (langs : List Language)
    (h : load_languages_from_dir listing = .ok langs) :
    ∀ L ∈ langs, (L.isCaseSensitive = "true" ∨ L.isCaseSensitive = "false") ∧
      L.filenamePattern ≠ "" ∧ L.lexer ≠ "" :=
  loadFiles_ok_props _ langs h

theorem contentValue_KW1 (L : Language) : contentValue L K_KW1 = L.keywordsClass1 := by
  simp [contentValue, K_KW1, K_KW2, K_KW3, K_OPS, K_SL, K_ML_START, K_ML_END, K_CASE, K_LEXER]

theorem contentValue_KW2 (L : Language) : contentValue L K_KW2 = L.keywordsClass2 := by
  simp [contentValue, K_KW1, K_KW2, K_KW3, K_OPS, K_SL, K_ML_START, K_ML_END, K_CASE, K_LEXER]

theorem contentValue_KW3 (L : Language) : contentValue L K_KW3 = L.keywordsClass3 := by
  simp [contentValue, K_KW1, K_KW2, K_KW3, K_OPS, K_SL, K_ML_START, K_ML_END, K_CASE, K_LEXER]

theorem contentValue_OPS (L : Language) : contentValue L K_OPS = L.operatorSymbols := by
  simp [contentValue, K_KW1, K_KW2, K_KW3, K_OPS, K_SL, K_ML_START, K_ML_END, K_CASE, K_LEXER]

theorem contentValue_SL (L : Language) :
    contentValue L K_SL = L.singleLineCommentSymbols := by
  simp [contentValue, K_KW1, K_KW2, K_KW3, K_OPS, K_SL, K_ML_START, K_ML_END, K_CASE, K_LEXER]

theorem contentValue_MLS (L : Language) :
    contentValue L K_ML_START = L.multiLineCommentStartSymbols := by
  simp [contentValue, K_KW1, K_KW2, K_KW3, K_OPS, K_SL, K_ML_START, K_ML_END, K_CASE, K_LEXER]

theorem contentValue_MLE (L : Language) :
    contentValue L K_ML_END = L.multiLineCommentEndSymbols := by
  simp [contentValue, K_KW1, K_KW2, K_KW3, K_OPS, K_SL, K_ML_START, K_ML_END, K_CASE, K_LEXER]

theorem contentValue_CASE (L : Language) : contentValue L K_CASE = caseValue L := by
  simp [contentValue, K_KW1, K_KW2, K_KW3, K_OPS, K_SL, K_ML_START, K_ML_END, K_CASE, K_LEXER]

theorem contentValue_LEXER (L : Language) : contentValue L K_LEXER = lexerValue L := by
  simp [contentValue, K_KW1, K_KW2, K_KW3, K_OPS, K_SL, K_ML_START, K_ML_END, K_CASE, K_LEXER]

/-- Reconstructing a record from the blob built over a collision-free record
set returns the record unchanged. -/
theorem from_flat_build (langs : List Language) (L : Language) (hL : L ∈ langs)
    (hu : (langs.map (fun M => M.uuid)).Nodup)
    (hs : (langs.map keySuffix).Nodup)
    (hcase : L.isCaseSensitive = "true" ∨ L.isCaseSensitive = "false")
    (hlex : L.lexer ≠ "") :
    Language.from_flat L.uuid L.filenamePattern (build_flat_from_languages langs) = L := by
  have huq : ∀ M ∈ langs, M.uuid = L.uuid → M = L := fun M hM he =>
    nodup_map_inj _ langs hu M hM L hL he
  have hsq : ∀ M ∈ langs, keySuffix M = keySuffix L → M = L := fun M hM he =>
    nodup_map_inj _ langs hs M hM L hL he
  have hdesc : dget (build_flat_from_languages langs) (K_DESC ++ L.uuid) = some L.name :=
    dget_foldl_insertBlock_desc L langs [] hL huq
  have hget : ∀ pref, pref ∈ ninePrefixes →
      dget (build_flat_from_languages langs)
        (pref ++ pattern_to_key_suffix L.filenamePattern) = some (contentValue L pref) := by
    intro pref hpref
    have := dget_foldl_insertBlock_content pref hpref L langs [] hL hsq
    simpa [keySuffix] using this
  have hc1 := hget K_KW1 (by decide); rw [contentValue_KW1] at hc1
  have hc2 := hget K_KW2 (by decide); rw [contentValue_KW2] at hc2
  have hc3 := hget K_KW3 (by decide); rw [contentValue_KW3] at hc3
  have hops := hget K_OPS (by decide); rw [contentValue_OPS] at hops
  have hsl := hget K_SL (by decide); rw [contentValue_SL] at hsl
  have hmls := hget K_ML_START (by decide); rw [contentValue_MLS] at hmls
  have hmle := hget K_ML_END (by decide); rw [contentValue_MLE] at hmle
  have hcv := hget K_CASE (by decide); rw [contentValue_CASE] at hcv
  have hlxv := hget K_LEXER (by decide); rw [contentValue_LEXER] at hlxv
  obtain ⟨u, nm, fp, k1, k2, k3, ops, sl, mls, mle, ic, be, lx⟩ := L
  simp only at hcase hlex hdesc hc1 hc2 hc3 hops hsl hmls hmle hcv hlxv
  unfold Language.from_flat
  simp only [hdesc, hc1, hc2, hc3, hops, hsl, hmls, hmle, hcv, hlxv, Option.getD_some]
  have hlv : lexerValue (Language.mk u nm fp k1 k2 k3 ops sl mls mle ic be lx) = lx := by
    simp [lexerValue, hlex]
  rw [hlv, if_neg hlex]
  rcases hcase with hic | hic <;> subst hic <;> cases be
  · rw [show caseValue (Language.mk u nm fp k1 k2 k3 ops sl mls mle "true" false lx) =
      "true no_backslash_escape" from rfl]
    rw [Language.mk.injEq]
    refine ⟨rfl, rfl, rfl, rfl, rfl, rfl, rfl, rfl, rfl, rfl, by decide, by decide, rfl⟩
  · rw [show caseValue (Language.mk u nm fp k1 k2 k3 ops sl mls mle "true" true lx) =
      "true" from rfl]
    rw [Language.mk.injEq]
    refine ⟨rfl, rfl, rfl, rfl, rfl, rfl, rfl, rfl, rfl, rfl, by decide, by decide, rfl⟩
  · rw [show caseValue (Language.mk u nm fp k1 k2 k3 ops sl mls mle "false" false lx) =
      "false no_backslash_escape" from rfl]
    rw [Language.mk.injEq]
    refine ⟨rfl, rfl, rfl, rfl, rfl, rfl, rfl, rfl, rfl, rfl, by decide, by decide, rfl⟩
  · rw [show caseValue (Language.mk u nm fp k1 k2 k3 ops sl mls mle "false" true lx) =
      "false" from rfl]
    rw [Language.mk.injEq]
    refine ⟨rfl, rfl, rfl, rfl, rfl, rfl, rfl, rfl, rfl, rfl, by decide, by decide, rfl⟩

/-- Claim C1, amended: the claim's precondition of pairwise-distinct
`filenamePattern` strings is too weak, because the suffix derivation is
lossy; with pairwise-distinct uuids and pairwise-distinct derived key
suffixes, packing (build the flat blob, encode it) and then unpacking
(decode, `parse_languages_from_flat`, `Language.from_flat`) yields exactly
the original records, keyed by uuid, in order. -/
theorem c1_roundtrip_amended (listing : List (String × JObj)) (langs : List Language)
    (hload : load_languages_from_dir listing = .ok langs)
    (hu : (langs.map (fun L => L.uuid)).Nodup)
    (hs : (langs.map keySuffix).Nodup) (no_header : Bool) :
    load_json_with_optional_header
        (dump_araxis_json (build_flat_from_languages langs) no_header) =
      some (build_flat_from_languages langs) ∧
    (parse_languages_from_flat (build_flat_from_languages langs)).1 =
      langs.map (fun L => (L.uuid, L)) := by
  have hprops := load_dir_props listing langs hload
  have hbe : build_flat_from_languages langs = blocksConcat langs :=
    build_eq_blocksConcat langs hu hs
  have hnodup : (dkeys (build_flat_from_languages langs)).Nodup := by
    rw [hbe]
    exact dkeys_blocksConcat_nodup langs hu hs
  refine ⟨load_json_dump _ hnodup no_header, ?_⟩
  show ((build_flat_from_languages langs).foldl
    (parseStep (build_flat_from_languages langs)) ([], [])).1 = _
  nth_rewrite 2 [hbe]
  rw [parse_foldl_blocksConcat (build_flat_from_languages langs) langs ([], [])]
  rw [parse_records (build_flat_from_languages langs) langs ([], []) hu
    (fun M _ => rfl)]
  rw [List.nil_append]
  apply List.map_congr_left
  intro M hM
  obtain ⟨hcaseM, _, hlexM⟩ := hprops M hM
  rw [from_flat_build langs M hM hu hs hcaseM hlexM]

instance {α β : Type} [DecidableEq α] [DecidableEq β] : DecidableEq (Except α β) :=
  fun a b =>
    match a, b with
    | .ok x, .ok y =>
      if h : x = y then isTrue (by rw [h]) else isFalse (by simp [h])
    | .error x, .error y =>
      if h : x = y then isTrue (by rw [h]) else isFalse (by simp [h])
    | .ok _, .error _ => isFalse (by simp)
    | .error _, .ok _ => isFalse (by simp)

def c1exListing : List (String × JObj) :=
  [("a.json", [("uuid", JVal.jstr "a"), ("name", JVal.jstr "A"),
     ("filenamePattern", JVal.jstr "*.cpp"), ("isCaseSensitive", JVal.jstr "false"),
     ("lexer", JVal.jstr "generic"), ("keywordsClass1", JVal.jstr "KA")]),
   ("b.json", [("uuid", JVal.jstr "b"), ("name", JVal.jstr "B"),
     ("filenamePattern", JVal.jstr "cpp"), ("isCaseSensitive", JVal.jstr "false"),
     ("lexer", JVal.jstr "generic"), ("keywordsClass1", JVal.jstr "KB")])]

def c1exRecA : Language :=
  { uuid := "a", name := "A", filenamePattern := "*.cpp", keywordsClass1 := "KA" }

def c1exRecB : Language :=
  { uuid := "b", name := "B", filenamePattern := "cpp", keywordsClass1 := "KB" }

def c1exRecords : List Language := [c1exRecA, c1exRecB]

/-- The record the full pack-then-unpack pipeline returns for a uuid. -/
def c1exRound (u : String) : Option Language :=
  match load_json_with_optional_header
      (dump_araxis_json (build_flat_from_languages c1exRecords) false) with
  | some m => dget (parse_languages_from_flat m).1 u
  | none => none

/-- Claim C1 as stated is false: the two loaded records have distinct uuids
and distinct `filenamePattern` strings (`*.cpp` vs `cpp`), yet their content
keys collide on the suffix `cpp`, so the round-tripped record for uuid `a`
carries record `b`'s keyword class and differs from the original. -/
theorem c1_roundtrip_counterexample :
    load_languages_from_dir c1exListing = .ok c1exRecords ∧
    (c1exRecords.map (fun L => L.uuid)).Nodup ∧
    (c1exRecords.map (fun L => L.filenamePattern)).Nodup ∧
    (c1exRound "a").map (fun L => L.keywordsClass1) = some "KB" ∧
    c1exRound "a" ≠ some c1exRecA :=
  ⟨by decide, by decide, by decide, by decide, by decide⟩

def c1wListing : List (String × JObj) :=
  [("a.json", [("uuid", JVal.jstr "a"), ("name", JVal.jstr "A"),
     ("filenamePattern", JVal.jstr "*.cpp"),
     ("isCaseSensitive", JVal.jstr "true"), ("lexer", JVal.jstr "cpp")])]

def c1wRec : Language :=
  { uuid := "a", name := "A", filenamePattern := "*.cpp",
    isCaseSensitive := "true", lexer := "cpp" }

/-- Witness for the amended C1 at a concrete collision-free directory. -/
theorem c1_roundtrip_amended_witness :
    load_languages_from_dir c1wListing = .ok [c1wRec] ∧
    (parse_languages_from_flat (build_flat_from_languages [c1wRec])).1 =
      [("a", c1wRec)] := by
  have h := c1_roundtrip_amended c1wListing [c1wRec]
    (by decide) (by decide) (by decide) false
  refine ⟨by decide, ?_⟩
  rw [h.2]
  decide

def c2exListing : List (String × JObj) :=
  [("a.json", [("uuid", JVal.jstr "a"), ("name", JVal.jstr "A"),
     ("filenamePattern", JVal.jstr "*.cpp"), ("isCaseSensitive", JVal.jstr "false"),
     ("lexer", JVal.jstr "generic"), ("keywordsClass1", JVal.jstr "KA")]),
   ("b.json", [("uuid", JVal.jstr "b"), ("name", JVal.jstr "B"),
     ("filenamePattern", JVal.jstr "cpp"), ("isCaseSensitive", JVal.jstr "false"),
     ("lexer", JVal.jstr "generic"), ("keywordsClass1", JVal.jstr "KB")])]

def c2exRecords : List Language :=
  [{ uuid := "a", name := "A", filenamePattern := "*.cpp", keywordsClass1 := "KA" },
   { uuid := "b", name := "B", filenamePattern := "cpp", keywordsClass1 := "KB" }]

/-- Claim C2: the spec requires `pack` and `merge` to treat two records with
different uuids whose different patterns normalize to the same key suffix as
a naming conflict.  The code checks only exact pattern-string equality, so
on `*.cpp` vs `cpp` (both suffix `cpp`) both orchestrators succeed and build
a blob in which the two records' content keys collide, the later record's
values overwriting the earlier one's — evaluated here at the failing
input. -/
theorem c2_suffix_collision_eval :
    pattern_to_key_suffix "*.cpp" = pattern_to_key_suffix "cpp" ∧
    ("*.cpp" : String) ≠ "cpp" ∧
    load_languages_from_dir c2exListing = .ok c2exRecords ∧
    pack_result c2exListing = .ok (build_flat_from_languages c2exRecords) ∧
    dget (build_flat_from_languages c2exRecords) "keywords.*.cpp" = some "KB" ∧
    (merge_result none c2exListing).isOk = true :=
  ⟨by decide, by decide, by decide, by decide, by decide, by decide⟩

-- Relating the merge loop on an empty target to the pack check.

/-- The uuid-to-record dict built from a fresh record list. -/
def mapPair (pre : List Language) : Dict Language :=
  pre.map (fun L => (L.uuid, L))

/-- The pattern-to-uuid dict after processing a record list. -/
def seenOf (pre : List Language) : Flat :=
  pre.foldl (fun s L => dinsert s L.filenamePattern L.uuid) []

theorem dkeys_mapPair (pre : List Language) :
    dkeys (mapPair pre) = pre.map (fun L => L.uuid) := by
  simp [mapPair, dkeys]

theorem dmem_eq_false_iff {α : Type} (d : Dict α) (k : String) :
    dmem d k = false ↔ k ∉ dkeys d := by
  constructor
  · intro h hmem
    rw [(dmem_iff d k).mpr hmem] at h
    simp at h
  · intro h
    cases hb : dmem d k
    · rfl
    · exact absurd ((dmem_iff d k).mp hb) h

theorem mapPair_append_one (pre : List Language) (L : Language) :
    mapPair (pre ++ [L]) = mapPair pre ++ [(L.uuid, L)] := by
  simp [mapPair]

theorem seenOf_append_one (pre : List Language) (L : Language) :
    seenOf (pre ++ [L]) = dinsert (seenOf pre) L.filenamePattern L.uuid := by
  simp [seenOf, List.foldl_append]

theorem seen_lookup :
    ∀ (pre : List Language) (s0 : Flat) (fp u : String),
      dget (pre.foldl (fun s L => dinsert s L.filenamePattern L.uuid) s0) fp = some u →
      (∃ M ∈ pre, M.uuid = u ∧ M.filenamePattern = fp) ∨ dget s0 fp = some u := by
  intro pre
  induction pre with
  | nil => intro s0 fp u h; exact Or.inr h
  | cons M rest ih =>
    intro s0 fp u h
    rw [List.foldl_cons] at h
    rcases ih _ fp u h with ⟨M', hM', hu, hfp⟩ | h'
    · exact Or.inl ⟨M', List.mem_cons_of_mem _ hM', hu, hfp⟩
    · rw [dget_dinsert] at h'
      by_cases hfp : fp = M.filenamePattern
      · rw [if_pos hfp] at h'
        exact Or.inl ⟨M, List.mem_cons_self M rest, Option.some.inj h', hfp.symm⟩
      · rw [if_neg hfp] at h'
        exact Or.inr h'

theorem merge_pack_loop :
    ∀ (rest pre : List Language),
      ((pre ++ rest).map (fun L => L.uuid)).Nodup →
      (∀ L ∈ pre ++ rest, L.uuid ≠ "") →
      ((∀ st', mergeLoop ⟨[], mapPair pre, seenOf pre⟩ rest = .ok st' →
          packCheckLoop (seenOf pre) rest = .ok () ∧
          st'.uuid_to_lang = mapPair (pre ++ rest)) ∧
       (packCheckLoop (seenOf pre) rest = .ok () →
         (mergeLoop ⟨[], mapPair pre, seenOf pre⟩ rest).isOk = true)) := by
  intro rest
  induction rest with
  | nil =>
    intro pre _ _
    constructor
    · intro st' h
      simp only [mergeLoop, Except.ok.injEq] at h
      subst h
      exact ⟨rfl, by simp⟩
    · intro _
      rfl
  | cons L rest ih =>
    intro pre hu hne
    have hLfresh : L.uuid ∉ pre.map (fun M => M.uuid) := by
      rw [List.map_append] at hu
      rcases List.nodup_append.mp hu with ⟨_, _, hdisj⟩
      intro hmem
      exact hdisj hmem (by simp)
    have hmemF : dmem (mapPair pre) L.uuid = false := by
      rw [dmem_eq_false_iff, dkeys_mapPair]
      exact hLfresh
    cases hcu : dget (seenOf pre) L.filenamePattern with
    | none =>
      have hstep : mergeLoop ⟨[], mapPair pre, seenOf pre⟩ (L :: rest) =
          mergeLoop ⟨[], mapPair (pre ++ [L]), seenOf (pre ++ [L])⟩ rest := by
        rw [mapPair_append_one, seenOf_append_one,
          ← dinsert_fresh (mapPair pre) L.uuid L hmemF]
        simp [mergeLoop, hmemF, hcu]
      have hstepP : packCheckLoop (seenOf pre) (L :: rest) =
          packCheckLoop (seenOf (pre ++ [L])) rest := by
        rw [seenOf_append_one]
        simp [packCheckLoop, hcu]
      rw [hstep, hstepP]
      have hu' : (((pre ++ [L]) ++ rest).map (fun M => M.uuid)).Nodup := by
        simpa [List.append_assoc] using hu
      have hne' : ∀ M ∈ (pre ++ [L]) ++ rest, M.uuid ≠ "" := by
        intro M hM
        exact hne M (by simpa [List.append_assoc] using hM)
      have hrec := ih (pre ++ [L]) hu' hne'
      constructor
      · intro st' h
        obtain ⟨hp, hul⟩ := hrec.1 st' h
        refine ⟨hp, ?_⟩
        rw [hul]
        simp [List.append_assoc]
      · exact hrec.2
    | some c =>
      have hcmem : ∃ M ∈ pre, M.uuid = c ∧ M.filenamePattern = L.filenamePattern := by
        rcases seen_lookup pre [] _ _ hcu with h | h
        · exact h
        · exact absurd h (by simp [dget_nil])
      obtain ⟨M, hM, hMu, hMfp⟩ := hcmem
      have hcne : c ≠ "" := by
        rw [← hMu]
        exact hne M (List.mem_append_left _ hM)
      have hcneu : c ≠ L.uuid := by
        intro he
        apply hLfresh
        rw [← he, ← hMu]
        exact List.mem_map.mpr ⟨M, hM, rfl⟩
      constructor
      · intro st' h
        exfalso
        simp [mergeLoop, hmemF, hcu, hcne, hcneu] at h
      · intro hp
        exfalso
        simp [packCheckLoop, hcu, hcneu] at hp

theorem mapPair_map_snd (langs : List Language) :
    (mapPair langs).map (fun p => p.2) = langs := by
  induction langs with
  | nil => rfl
  | cons L rest ih =>
    simp only [mapPair, List.map_cons] at ih ⊢
    rw [ih]

/-- Claim C5 (amended): provided the loaded records' uuids are pairwise
distinct and non-empty, merging into a non-existent destination has the
same success-versus-failure outcome as packing the same directory, and on
success both write exactly the same blob text. -/
theorem c5_merge_pack_amended (listing : List (String × JObj)) (no_header : Bool)
    (langs : List Language)
    (hload : load_languages_from_dir listing = .ok langs)
    (hu : (langs.map (fun L => L.uuid)).Nodup)
    (hne : ∀ L ∈ langs, L.uuid ≠ "") :
    (cmd_merge none listing no_header).isOk = (cmd_pack listing no_header).isOk ∧
    ∀ t : String, cmd_merge none listing no_header = .ok t ↔
      cmd_pack listing no_header = .ok t := by
  have hmp := merge_pack_loop langs [] (by simpa using hu) (by simpa using hne)
  cases hml : mergeLoop ⟨[], [], []⟩ langs with
  | ok st =>
    obtain ⟨hp, hul⟩ := hmp.1 st hml
    have hm : merge_result none listing = .ok (langs, build_flat_from_languages langs) := by
      simp only [merge_result, parse_languages_from_flat, List.foldl_nil, hload, hml, hul]
      simp [mapPair_map_snd]
    have hpk : pack_result listing = .ok (build_flat_from_languages langs) := by
      simp only [pack_result, hload]
      rw [show packCheckLoop [] langs = .ok () from hp]
    constructor
    · simp only [cmd_merge, cmd_pack, hm, hpk]
      rfl
    · intro t
      simp only [cmd_merge, cmd_pack, hm, hpk]
      exact Iff.rfl
  | error e =>
    have hpk : ∃ e', packCheckLoop [] langs = .error e' := by
      cases hpc : packCheckLoop [] langs with
      | ok u =>
        exfalso
        cases u
        have := hmp.2 hpc
        rw [show mergeLoop ⟨[], mapPair [], seenOf []⟩ langs = .error e from hml] at this
        exact Bool.noConfusion this
      | error e' => exact ⟨e', rfl⟩
    obtain ⟨e', hpc⟩ := hpk
    have hm : merge_result none listing = .error e := by
      simp only [merge_result, parse_languages_from_flat, List.foldl_nil, hload, hml]
    have hpk2 : pack_result listing = .error e' := by
      simp only [pack_result, hload, hpc]
    constructor
    · simp only [cmd_merge, cmd_pack, hm, hpk2]
      rfl
    · intro t
      simp only [cmd_merge, cmd_pack, hm, hpk2]
      constructor
      · intro h
        exact absurd h (by simp [Except.map])
      · intro h
        exact absurd h (by simp [Except.map])

def c5exListing : List (String × JObj) :=
  [("a.json", [("uuid", JVal.jstr ""), ("name", JVal.jstr "A"),
     ("filenamePattern", JVal.jstr "p"), ("isCaseSensitive", JVal.jstr "false"),
     ("lexer", JVal.jstr "generic")]),
   ("b.json", [("uuid", JVal.jstr "b"), ("name", JVal.jstr "B"),
     ("filenamePattern", JVal.jstr "p"), ("isCaseSensitive", JVal.jstr "false"),
     ("lexer", JVal.jstr "generic")])]

/-- Counterexample to claim C5 as stated: on a directory holding two records
with the same pattern, one of them with the empty uuid, `pack` fails with a
conflict but `merge` into a non-existent destination succeeds, because the
merge conflict test treats an empty conflicting uuid as falsy. -/
theorem c5_merge_pack_counterexample :
    (cmd_pack c5exListing false).isOk = false ∧
    (cmd_merge none c5exListing false).isOk = true := by
  exact ⟨rfl, rfl⟩

def c5wListing : List (String × JObj) :=
  [("w.json", [("uuid", JVal.jstr "u1"), ("name", JVal.jstr "W"),
     ("filenamePattern", JVal.jstr "*.w"), ("isCaseSensitive", JVal.jstr "true"),
     ("lexer", JVal.jstr "generic")])]

/-- Witness for the amended C5 theorem at a concrete one-record directory. -/
theorem c5_merge_pack_amended_witness :
    (cmd_merge none c5wListing false).isOk = (cmd_pack c5wListing false).isOk ∧
    ∀ t : String, cmd_merge none c5wListing false = .ok t ↔
      cmd_pack c5wListing false = .ok t := by
  refine c5_merge_pack_amended c5wListing false
    [{ uuid := "u1", name := "W", filenamePattern := "*.w",
       isCaseSensitive := "true" }] ?_ ?_ ?_
  · rfl
  · decide
  · decide

-- Characterizing the pack conflict check.

/-- Any two records sharing a `filenamePattern` string also share a uuid. -/
def Compat (l : List Language) : Prop :=
  l.Pairwise (fun a b => a.filenamePattern = b.filenamePattern → a.uuid = b.uuid)

theorem packCheckLoop_ok_iff : ∀ (rest : List Language) (seen : Flat),
    packCheckLoop seen rest = .ok () ↔
      (Compat rest ∧
       ∀ L ∈ rest, ∀ u, dget seen L.filenamePattern = some u → u = L.uuid) := by
  intro rest
  induction rest with
  | nil =>
    intro seen
    simp [packCheckLoop, Compat]
  | cons L rest ih =>
    intro seen
    cases hd : dget seen L.filenamePattern with
    | none =>
      have hred : packCheckLoop seen (L :: rest) =
          packCheckLoop (dinsert seen L.filenamePattern L.uuid) rest := by
        simp [packCheckLoop, hd]
      rw [hred, ih]
      constructor
      · rintro ⟨hcomp, hcond⟩
        refine ⟨List.Pairwise.cons ?_ hcomp, ?_⟩
        · intro M hM hfp
          exact hcond M hM L.uuid (by rw [dget_dinsert, if_pos hfp.symm])
        · intro M hM u hu
          rcases List.mem_cons.mp hM with hML | hMr
          · rw [hML] at hu
            rw [hu] at hd
            exact absurd hd (by simp)
          · by_cases hfp : M.filenamePattern = L.filenamePattern
            · rw [hfp, hd] at hu
              exact absurd hu (by simp)
            · exact hcond M hMr u (by rw [dget_dinsert, if_neg hfp]; exact hu)
      · rintro ⟨hcomp, hcond⟩
        have hhead := List.pairwise_cons.mp hcomp
        refine ⟨hhead.2, ?_⟩
        intro M hM u hu
        rw [dget_dinsert] at hu
        by_cases hfp : M.filenamePattern = L.filenamePattern
        · rw [if_pos hfp] at hu
          have := hhead.1 M hM hfp.symm
          rw [← this]
          exact (Option.some.inj hu).symm
        · rw [if_neg hfp] at hu
          exact hcond M (List.mem_cons_of_mem _ hM) u hu
    | some u0 =>
      by_cases hne : u0 = L.uuid
      · have hred : packCheckLoop seen (L :: rest) =
            packCheckLoop (dinsert seen L.filenamePattern L.uuid) rest := by
          simp [packCheckLoop, hd, hne]
        rw [hred, ih]
        constructor
        · rintro ⟨hcomp, hcond⟩
          refine ⟨List.Pairwise.cons ?_ hcomp, ?_⟩
          · intro M hM hfp
            exact hcond M hM L.uuid (by rw [dget_dinsert, if_pos hfp.symm])
          · intro M hM u hu
            rcases List.mem_cons.mp hM with hML | hMr
            · rw [hML]
              rw [hML] at hu
              rw [hd] at hu
              rw [← hne]
              exact (Option.some.inj hu).symm
            · by_cases hfp : M.filenamePattern = L.filenamePattern
              · rw [hfp, hd] at hu
                have hu' : u = L.uuid := by rw [← hne]; exact (Option.some.inj hu).symm
                have := hcond M hMr L.uuid (by rw [dget_dinsert, if_pos hfp])
                rw [hu', this]
              · exact hcond M hMr u (by rw [dget_dinsert, if_neg hfp]; exact hu)
        · rintro ⟨hcomp, hcond⟩
          have hhead := List.pairwise_cons.mp hcomp
          refine ⟨hhead.2, ?_⟩
          intro M hM u hu
          rw [dget_dinsert] at hu
          by_cases hfp : M.filenamePattern = L.filenamePattern
          · rw [if_pos hfp] at hu
            have := hhead.1 M hM hfp.symm
            rw [← this]
            exact (Option.some.inj hu).symm
          · rw [if_neg hfp] at hu
            exact hcond M (List.mem_cons_of_mem _ hM) u hu
      · constructor
        · intro h
          exfalso
          simp [packCheckLoop, hd, hne] at h
        · rintro ⟨hcomp, hcond⟩
          exfalso
          exact hne (hcond L (List.mem_cons_self L rest) u0 hd)

theorem packCheckLoop_error_names :
    ∀ (rest pre : List Language) (e : Err),
      packCheckLoop (seenOf pre) rest = .error e →
      ∃ u1 u2 pat, e = .packConflict u1 u2 pat ∧ u1 ≠ u2 ∧
        (∃ A ∈ pre ++ rest, A.uuid = u1 ∧ A.filenamePattern = pat) ∧
        (∃ B ∈ rest, B.uuid = u2 ∧ B.filenamePattern = pat) := by
  intro rest
  induction rest with
  | nil =>
    intro pre e h
    exact Except.noConfusion h
  | cons L rest ih =>
    intro pre e h
    cases hd : dget (seenOf pre) L.filenamePattern with
    | none =>
      have hred : packCheckLoop (seenOf pre) (L :: rest) =
          packCheckLoop (seenOf (pre ++ [L])) rest := by
        rw [seenOf_append_one]
        simp [packCheckLoop, hd]
      rw [hred] at h
      obtain ⟨u1, u2, pat, he, hne, ⟨A, hA, hAp⟩, ⟨B, hB, hBp⟩⟩ := ih (pre ++ [L]) e h
      exact ⟨u1, u2, pat, he, hne,
        ⟨A, by simpa [List.append_assoc] using hA, hAp⟩,
        ⟨B, List.mem_cons_of_mem _ hB, hBp⟩⟩
    | some u0 =>
      by_cases hne : u0 = L.uuid
      · have hred : packCheckLoop (seenOf pre) (L :: rest) =
            packCheckLoop (seenOf (pre ++ [L])) rest := by
          rw [seenOf_append_one]
          simp [packCheckLoop, hd, hne]
        rw [hred] at h
        obtain ⟨u1, u2, pat, he, hneu, ⟨A, hA, hAp⟩, ⟨B, hB, hBp⟩⟩ := ih (pre ++ [L]) e h
        exact ⟨u1, u2, pat, he, hneu,
          ⟨A, by simpa [List.append_assoc] using hA, hAp⟩,
          ⟨B, List.mem_cons_of_mem _ hB, hBp⟩⟩
      · have hered : packCheckLoop (seenOf pre) (L :: rest) =
            .error (.packConflict u0 L.uuid L.filenamePattern) := by
          simp [packCheckLoop, hd, hne]
        rw [hered] at h
        have he : e = .packConflict u0 L.uuid L.filenamePattern :=
          (Except.error.inj h).symm
        rcases seen_lookup pre [] _ _ hd with ⟨A, hA, hAu, hAp⟩ | hnil
        · exact ⟨u0, L.uuid, L.filenamePattern, he, hne,
            ⟨A, List.mem_append_left _ hA, hAu, hAp⟩,
            ⟨L, List.mem_cons_self L rest, rfl, rfl⟩⟩
        · exact absurd hnil (by simp [dget_nil])

-- Characterizing the merge conflict check.

/-- The state update one incoming record applies when it does not conflict
(cli.py lines 367-370); it is also the update used to locate the first
conflicting record. -/
def mergeStepState (st : MState) (L : Language) : MState :=
  let uuid_exists := dmem st.uuid_to_lang L.uuid
  let tf := if uuid_exists then remove_lang st.target_flat L.uuid else st.target_flat
  { target_flat := tf
    uuid_to_lang := dinsert st.uuid_to_lang L.uuid L
    pattern_to_uuid := dinsert st.pattern_to_uuid L.filenamePattern L.uuid }

/-- The condition under which `cmd_merge` raises a ConflictError on record
`L` in state `st` (cli.py lines 358-366): the incoming uuid is not yet in
the record map and the pattern is mapped to a different, non-empty uuid. -/
def mergeConflictAt (st : MState) (L : Language) : Prop :=
  dmem st.uuid_to_lang L.uuid = false ∧
  ∃ c, dget st.pattern_to_uuid L.filenamePattern = some c ∧ c ≠ "" ∧ c ≠ L.uuid

theorem mergeLoop_cons (st : MState) (L : Language) (rest : List Language) :
    mergeLoop st (L :: rest) =
      if (!(dmem st.uuid_to_lang L.uuid) &&
          ((dget st.pattern_to_uuid L.filenamePattern).getD "" != "" &&
           (dget st.pattern_to_uuid L.filenamePattern).getD "" != L.uuid)) = true
      then .error (.mergeConflict L.uuid
        ((dget st.pattern_to_uuid L.filenamePattern).getD "") L.filenamePattern)
      else mergeLoop (mergeStepState st L) rest := by
  cases hg : dget st.pattern_to_uuid L.filenamePattern <;>
    simp [mergeLoop, mergeStepState, hg]

theorem conflictB_iff (st : MState) (L : Language) :
    ((!(dmem st.uuid_to_lang L.uuid)) &&
      ((dget st.pattern_to_uuid L.filenamePattern).getD "" != "" &&
       (dget st.pattern_to_uuid L.filenamePattern).getD "" != L.uuid)) = true ↔
    mergeConflictAt st L := by
  cases hm : dmem st.uuid_to_lang L.uuid <;>
    cases hg : dget st.pattern_to_uuid L.filenamePattern <;>
      simp [mergeConflictAt, hm, hg]

theorem mergeLoop_error_iff : ∀ (rest : List Language) (st : MState),
    (∃ e, mergeLoop st rest = .error e) ↔
      ∃ pre L post, rest = pre ++ L :: post ∧
        mergeConflictAt (pre.foldl mergeStepState st) L := by
  intro rest
  induction rest with
  | nil =>
    intro st
    constructor
    · rintro ⟨e, he⟩
      exact Except.noConfusion he
    · rintro ⟨pre, L, post, hsplit, -⟩
      cases pre <;> simp at hsplit
  | cons L rest ih =>
    intro st
    rw [mergeLoop_cons]
    by_cases hc : mergeConflictAt st L
    · rw [if_pos ((conflictB_iff st L).mpr hc)]
      constructor
      · intro _
        exact ⟨[], L, rest, rfl, hc⟩
      · intro _
        exact ⟨_, rfl⟩
    · rw [if_neg (fun h => hc ((conflictB_iff st L).mp h))]
      rw [ih (mergeStepState st L)]
      constructor
      · rintro ⟨pre, M, post, hsplit, hconf⟩
        exact ⟨L :: pre, M, post, by rw [hsplit, List.cons_append], hconf⟩
      · rintro ⟨pre, M, post, hsplit, hconf⟩
        cases pre with
        | nil =>
          rw [List.nil_append] at hsplit
          have hML : L = M := (List.cons.inj hsplit).1
          exact absurd (hML ▸ hconf) hc
        | cons P pre' =>
          rw [List.cons_append] at hsplit
          have hLP : L = P := (List.cons.inj hsplit).1
          have hrest : rest = pre' ++ M :: post := (List.cons.inj hsplit).2
          refine ⟨pre', M, post, hrest, ?_⟩
          rw [hLP]
          exact hconf
  
theorem mergeLoop_error_names : ∀ (rest : List Language) (st : MState) (e : Err),
    mergeLoop st rest = .error e →
    ∃ pre L post c, rest = pre ++ L :: post ∧
      dmem ((pre.foldl mergeStepState st)).uuid_to_lang L.uuid = false ∧
      dget ((pre.foldl mergeStepState st)).pattern_to_uuid L.filenamePattern = some c ∧
      c ≠ "" ∧ c ≠ L.uuid ∧ e = .mergeConflict L.uuid c L.filenamePattern := by
  intro rest
  induction rest with
  | nil =>
    intro st e h
    exact Except.noConfusion h
  | cons L rest ih =>
    intro st e h
    rw [mergeLoop_cons] at h
    by_cases hb : ((!(dmem st.uuid_to_lang L.uuid)) &&
        ((dget st.pattern_to_uuid L.filenamePattern).getD "" != "" &&
         (dget st.pattern_to_uuid L.filenamePattern).getD "" != L.uuid)) = true
    · rw [if_pos hb] at h
      obtain ⟨hm, c, hg, hce, hcu⟩ := (conflictB_iff st L).mp hb
      refine ⟨[], L, rest, c, rfl, hm, hg, hce, hcu, ?_⟩
      have he := (Except.error.inj h).symm
      rw [he, hg]
      rfl
    · rw [if_neg hb] at h
      obtain ⟨pre, M, post, c, hsplit, hmem, hg, hce, hcu, he⟩ :=
        ih (mergeStepState st L) e h
      exact ⟨L :: pre, M, post, c, by rw [hsplit, List.cons_append], hmem, hg, hce, hcu, he⟩

/-- Claim C4 (amended): with a validly loaded directory, (i) pack fails
exactly when two records with distinct uuids share a `filenamePattern`
string (so same-uuid repeats never conflict), (ii) a pack failure names two
loaded records' uuids sharing the offending pattern, (iii) merge fails
exactly when some incoming record's pattern is mapped — by the decoded
target blob or an earlier incoming record — to a different *non-empty*
uuid while the incoming uuid is not yet in the record map (the spec omits
the non-empty proviso), and (iv) a merge failure names the incoming uuid,
the mapped uuid and the offending pattern. -/
theorem c4_conflict_amended (listing : List (String × JObj)) (langs : List Language)
    (hload : load_languages_from_dir listing = .ok langs) :
    ((∃ e, pack_result listing = .error e) ↔ ¬ Compat langs) ∧
    (∀ u1 u2 pat, pack_result listing = .error (.packConflict u1 u2 pat) →
      u1 ≠ u2 ∧ (∃ A ∈ langs, A.uuid = u1 ∧ A.filenamePattern = pat) ∧
      (∃ B ∈ langs, B.uuid = u2 ∧ B.filenamePattern = pat)) ∧
    (∀ raw tf, load_json_with_optional_header raw = some tf →
      (((∃ e, merge_result (some raw) listing = .error e) ↔
        ∃ pre L post, langs = pre ++ L :: post ∧
          mergeConflictAt (pre.foldl mergeStepState
            ⟨tf, (parse_languages_from_flat tf).1,
                 (parse_languages_from_flat tf).2⟩) L) ∧
       (∀ e, merge_result (some raw) listing = .error e →
         ∃ pre L post c, langs = pre ++ L :: post ∧
           dmem ((pre.foldl mergeStepState
             ⟨tf, (parse_languages_from_flat tf).1,
                  (parse_languages_from_flat tf).2⟩)).uuid_to_lang L.uuid = false ∧
           dget ((pre.foldl mergeStepState
             ⟨tf, (parse_languages_from_flat tf).1,
                  (parse_languages_from_flat tf).2⟩)).pattern_to_uuid
             L.filenamePattern = some c ∧
           c ≠ "" ∧ c ≠ L.uuid ∧ e = .mergeConflict L.uuid c L.filenamePattern))) := by
  have hpackred : ∀ e, pack_result listing = .error e ↔ packCheckLoop [] langs = .error e := by
    intro e
    simp only [pack_result, hload]
    cases hpc : packCheckLoop [] langs with
    | ok u => simp
    | error e' => simp
  refine ⟨?_, ?_, ?_⟩
  · constructor
    · rintro ⟨e, he⟩
      rw [hpackred e] at he
      intro hcomp
      have hok := (packCheckLoop_ok_iff langs []).mpr
        ⟨hcomp, fun L _ u hu => absurd hu (by simp [dget_nil])⟩
      rw [hok] at he
      exact Except.noConfusion he
    · intro hncomp
      cases hpc : packCheckLoop [] langs with
      | ok u =>
        exfalso
        cases u
        exact hncomp ((packCheckLoop_ok_iff langs []).mp hpc).1
      | error e =>
        exact ⟨e, (hpackred e).mpr hpc⟩
  · intro u1 u2 pat h
    rw [hpackred _] at h
    obtain ⟨v1, v2, p, he, hne, hA, hB⟩ := packCheckLoop_error_names langs [] _ h
    obtain ⟨h1, h2, h3⟩ : v1 = u1 ∧ v2 = u2 ∧ p = pat := by
      have := he.symm
      simp only [Err.packConflict.injEq] at this
      exact this
    subst h1; subst h2; subst h3
    refine ⟨hne, ?_, ?_⟩
    · simpa using hA
    · obtain ⟨B, hB, hBp⟩ := hB
      exact ⟨B, hB, hBp⟩
  · intro raw tf htgt
    have hmred : ∀ X : Except Err (List Language × Flat),
        merge_result (some raw) listing = X ↔
        (match mergeLoop ⟨tf, (parse_languages_from_flat tf).1,
            (parse_languages_from_flat tf).2⟩ langs with
         | .error e => Except.error e
         | .ok st =>
           Except.ok (st.uuid_to_lang.map (fun p => p.2),
             build_flat_from_languages (st.uuid_to_lang.map (fun p => p.2)))) = X := by
      intro X
      simp only [merge_result, htgt, hload]
    constructor
    · constructor
      · rintro ⟨e, he⟩
        rw [hmred _] at he
        cases hml : mergeLoop ⟨tf, (parse_languages_from_flat tf).1,
            (parse_languages_from_flat tf).2⟩ langs with
        | ok st =>
          rw [hml] at he
          exact absurd he (by simp)
        | error e' =>
          exact (mergeLoop_error_iff langs ⟨tf, (parse_languages_from_flat tf).1,
            (parse_languages_from_flat tf).2⟩).mp ⟨e', hml⟩
      · intro hsplit
        obtain ⟨e, hml⟩ := (mergeLoop_error_iff langs _).mpr hsplit
        refine ⟨e, (hmred _).mpr ?_⟩
        rw [hml]
    · intro e he
      rw [hmred _] at he
      cases hml : mergeLoop ⟨tf, (parse_languages_from_flat tf).1,
          (parse_languages_from_flat tf).2⟩ langs with
      | ok st =>
        rw [hml] at he
        exact absurd he (by simp)
      | error e' =>
        rw [hml] at he
        have : e' = e := Except.error.inj he
        subst this
        exact mergeLoop_error_names langs _ e' hml

def c4exTargetFlat : Flat := [("file.patterns.", "p")]

def c4exTarget : String := dump_araxis_json c4exTargetFlat false

def c4exListing : List (String × JObj) :=
  [("b.json", [("uuid", JVal.jstr "b"), ("name", JVal.jstr "B"),
     ("filenamePattern", JVal.jstr "p"), ("isCaseSensitive", JVal.jstr "false"),
     ("lexer", JVal.jstr "generic")])]

def c4exRec : Language :=
  { uuid := "b", name := "B", filenamePattern := "p", isCaseSensitive := "false" }

/-- Counterexample to claim C4 as stated: the target blob owns pattern `p`
under the empty uuid, the incoming record claims `p` under uuid `b` which
is absent from the record map — the claimed iff demands a ConflictError,
yet merge succeeds, because the code drops the conflict when the mapped
uuid is the empty string. -/
theorem c4_conflict_counterexample :
    load_json_with_optional_header c4exTarget = some c4exTargetFlat ∧
    (parse_languages_from_flat c4exTargetFlat).2 = [("p", "")] ∧
    dmem (parse_languages_from_flat c4exTargetFlat).1 "b" = false ∧
    load_languages_from_dir c4exListing = .ok [c4exRec] ∧
    ("" : String) ≠ c4exRec.uuid ∧
    (merge_result (some c4exTarget) c4exListing).isOk = true := by
  exact ⟨rfl, rfl, rfl, rfl, by decide, rfl⟩

def c4wListing : List (String × JObj) :=
  [("w.json", [("uuid", JVal.jstr "u1"), ("name", JVal.jstr "W"),
     ("filenamePattern", JVal.jstr "*.w"), ("isCaseSensitive", JVal.jstr "true"),
     ("lexer", JVal.jstr "generic")])]

def c4wRec : Language :=
  { uuid := "u1", name := "W", filenamePattern := "*.w", isCaseSensitive := "true" }

/-- Witness for the amended C4 theorem at a concrete one-record directory. -/
theorem c4_conflict_amended_witness :
    ((∃ e, pack_result c4wListing = .error e) ↔ ¬ Compat [c4wRec]) ∧
    (∀ u1 u2 pat, pack_result c4wListing = .error (.packConflict u1 u2 pat) →
      u1 ≠ u2 ∧ (∃ A ∈ [c4wRec], A.uuid = u1 ∧ A.filenamePattern = pat) ∧
      (∃ B ∈ [c4wRec], B.uuid = u2 ∧ B.filenamePattern = pat)) ∧
    (∀ raw tf, load_json_with_optional_header raw = some tf →
      (((∃ e, merge_result (some raw) c4wListing = .error e) ↔
        ∃ pre L post, [c4wRec] = pre ++ L :: post ∧
          mergeConflictAt (pre.foldl mergeStepState
            ⟨tf, (parse_languages_from_flat tf).1,
                 (parse_languages_from_flat tf).2⟩) L) ∧
       (∀ e, merge_result (some raw) c4wListing = .error e →
         ∃ pre L post c, [c4wRec] = pre ++ L :: post ∧
           dmem ((pre.foldl mergeStepState
             ⟨tf, (parse_languages_from_flat tf).1,
                  (parse_languages_from_flat tf).2⟩)).uuid_to_lang L.uuid = false ∧
           dget ((pre.foldl mergeStepState
             ⟨tf, (parse_languages_from_flat tf).1,
                  (parse_languages_from_flat tf).2⟩)).pattern_to_uuid
             L.filenamePattern = some c ∧
           c ≠ "" ∧ c ≠ L.uuid ∧ e = .mergeConflict L.uuid c L.filenamePattern))) :=
  c4_conflict_amended c4wListing [c4wRec] rfl

-- Characterizing the per-file loader validation.

/-- The files `load_languages_from_dir` actually processes, in order:
the `*.json` entries of the directory in sorted name order. -/
def processedFiles (listing : List (String × JObj)) : List (String × JObj) :=
  List.insertionSort (fun a b => strLe a.1 b.1 = true)
    (listing.filter (fun f => matchesJsonGlob f.1))

theorem load_dir_eq_loadFiles (listing : List (String × JObj)) :
    load_languages_from_dir listing = loadFiles (processedFiles listing) := rfl

/-- The `isCaseSensitive` value the loader normalizes out of a file object. -/
def caseOfObj (obj : JObj) : String :=
  pyLower (pyStr ((jget obj "isCaseSensitive").getD (.jstr "false")))

/-- The `filenamePattern` value the loader reads out of a file object. -/
def patternOfObj (obj : JObj) : String :=
  pyStr ((jget obj "filenamePattern").getD (.jstr ""))

theorem loadOneFile_error_forms (n : String) (obj : JObj) (e : Err)
    (h : loadOneFile n obj = .error e) :
    (∃ r, e = .missingField r n ∧ r ∈ requiredFields ∧
       obj.any (fun p => p.1 == r) = false) ∨
    (e = .badCase n ∧ ¬(caseOfObj obj = "true" ∨ caseOfObj obj = "false")) ∨
    (e = .emptyPattern n ∧ (caseOfObj obj = "true" ∨ caseOfObj obj = "false") ∧
       patternOfObj obj = "") := by
  unfold loadOneFile at h
  cases hf : requiredFields.find? (fun r => !(obj.any (fun p => p.1 == r))) with
  | some r =>
    simp only [hf] at h
    refine Or.inl ⟨r, ?_, List.mem_of_find?_eq_some hf, ?_⟩
    · exact (Except.error.inj h).symm
    · have := List.find?_some hf
      simpa using this
  | none =>
    simp only [hf] at h
    split_ifs at h with ha hb
    · refine Or.inr (Or.inl ⟨(Except.error.inj h).symm, ?_⟩)
      rw [Bool.not_eq_eq_eq_not, Bool.not_true] at ha
      exact of_decide_eq_false ha
    · have hcp : (caseOfObj obj = "true" ∨ caseOfObj obj = "false") := by
        rw [Bool.not_eq_true, Bool.not_eq_eq_eq_not, Bool.not_false] at ha
        exact of_decide_eq_true ha
      exact Or.inr (Or.inr ⟨(Except.error.inj h).symm, hcp, hb⟩)

theorem loadOneFile_missing_of_absent (n : String) (obj : JObj) (r : String)
    (hr : r ∈ requiredFields) (habs : obj.any (fun p => p.1 == r) = false) :
    ∃ r', loadOneFile n obj = .error (.missingField r' n) := by
  unfold loadOneFile
  cases hf : requiredFields.find? (fun s => !(obj.any (fun p => p.1 == s))) with
  | some r' =>
    exact ⟨r', rfl⟩
  | none =>
    exfalso
    have := List.find?_eq_none.mp hf r hr
    simp [habs] at this

theorem loadOneFile_result_badCase (n : String) (obj : JObj)
    (hall : requiredFields.find? (fun r => !(obj.any (fun p => p.1 == r))) = none)
    (hnc : ¬(caseOfObj obj = "true" ∨ caseOfObj obj = "false")) :
    loadOneFile n obj = .error (.badCase n) := by
  unfold loadOneFile
  rw [hall]
  have hd : decide (caseOfObj obj = "true" ∨ caseOfObj obj = "false") = false :=
    decide_eq_false hnc
  simp only [caseOfObj] at hd
  simp [hd]

theorem loadOneFile_result_emptyPattern (n : String) (obj : JObj)
    (hall : requiredFields.find? (fun r => !(obj.any (fun p => p.1 == r))) = none)
    (hc : caseOfObj obj = "true" ∨ caseOfObj obj = "false")
    (hp : patternOfObj obj = "") :
    loadOneFile n obj = .error (.emptyPattern n) := by
  unfold loadOneFile
  rw [hall]
  have hd : decide (caseOfObj obj = "true" ∨ caseOfObj obj = "false") = true :=
    decide_eq_true hc
  simp only [caseOfObj] at hd
  have hp' := hp
  simp only [patternOfObj] at hp'
  simp [hd, hp']

theorem loadFiles_ok_all : ∀ (fs : List (String × JObj)) (ls : List Language),
    loadFiles fs = .ok ls →
    ls.length = fs.length ∧ ∀ f ∈ fs, ∃ L, loadOneFile f.1 f.2 = .ok L := by
  intro fs
  induction fs with
  | nil =>
    intro ls h
    simp only [loadFiles, Except.ok.injEq] at h
    subst h
    exact ⟨rfl, by simp⟩
  | cons f rest ih =>
    intro ls h
    obtain ⟨n, o⟩ := f
    unfold loadFiles at h
    cases h1 : loadOneFile n o with
    | error e =>
      rw [h1] at h
      exact Except.noConfusion h
    | ok L =>
      rw [h1] at h
      cases h2 : loadFiles rest with
      | error e =>
        rw [h2] at h
        exact Except.noConfusion h
      | ok ls' =>
        rw [h2] at h
        have hls : ls = L :: ls' := (Except.ok.inj h).symm
        obtain ⟨hlen, hall⟩ := ih ls' h2
        subst hls
        refine ⟨by simp [hlen], ?_⟩
        intro g hg
        rcases List.mem_cons.mp hg with hgf | hgr
        · subst hgf
          exact ⟨L, h1⟩
        · exact hall g hgr

theorem loadFiles_error_mem : ∀ (fs : List (String × JObj)) (e : Err),
    loadFiles fs = .error e →
    ∃ f ∈ fs, loadOneFile f.1 f.2 = .error e := by
  intro fs
  induction fs with
  | nil =>
    intro e h
    exact Except.noConfusion h
  | cons f rest ih =>
    intro e h
    obtain ⟨n, o⟩ := f
    unfold loadFiles at h
    cases h1 : loadOneFile n o with
    | error e' =>
      rw [h1] at h
      have : e' = e := Except.error.inj h
      subst this
      exact ⟨(n, o), List.mem_cons_self _ _, h1⟩
    | ok L =>
      rw [h1] at h
      cases h2 : loadFiles rest with
      | error e' =>
        rw [h2] at h
        have : e' = e := Except.error.inj h
        subst this
        obtain ⟨g, hg, hge⟩ := ih e' h2
        exact ⟨g, List.mem_cons_of_mem _ hg, hge⟩
      | ok ls' =>
        rw [h2] at h
        exact Except.noConfusion h

theorem loadFiles_first_error : ∀ (pre : List (String × JObj)) (f : String × JObj)
    (post : List (String × JObj)) (e : Err),
    (∀ g ∈ pre, ∃ L, loadOneFile g.1 g.2 = .ok L) →
    loadOneFile f.1 f.2 = .error e →
    loadFiles (pre ++ f :: post) = .error e := by
  intro pre
  induction pre with
  | nil =>
    intro f post e _ hf
    obtain ⟨n, o⟩ := f
    rw [List.nil_append]
    unfold loadFiles
    rw [hf]
  | cons g pre' ih =>
    intro f post e hok hf
    obtain ⟨m, p⟩ := g
    obtain ⟨L, hL⟩ := hok (m, p) (List.mem_cons_self _ _)
    rw [List.cons_append]
    unfold loadFiles
    rw [hL]
    rw [ih f post e (fun g hg => hok g (List.mem_cons_of_mem _ hg)) hf]

theorem loadOneFile_ok_fields (n : String) (obj : JObj) (L : Language)
    (h : loadOneFile n obj = .ok L) :
    L.isCaseSensitive = caseOfObj obj ∧ L.filenamePattern = patternOfObj obj := by
  unfold loadOneFile at h
  cases hf : requiredFields.find? (fun r => !(obj.any (fun p => p.1 == r))) with
  | some r =>
    simp only [hf] at h
    exact Except.noConfusion h
  | none =>
    simp only [hf] at h
    split_ifs at h
    all_goals
      first
      | exact Except.noConfusion h
      | (simp only [Except.ok.injEq] at h
         subst h
         exact ⟨rfl, rfl⟩)

/-- Claim C8 (amended): (i) a missingField failure of the directory loader
names a required field absent from a processed file, (ii) a processed file
with an absent required field forces some failure, and (iii) forces a
missingField failure naming that file when every earlier processed file
validates; (iv) when all five required fields are present in every
processed file, the loader fails exactly when some file's lower-cased
isCaseSensitive is neither "true" nor "false" or its filenamePattern is
empty; (v) success returns one record per processed file (no partial
list).  An invalid earlier file can mask a later file's missing field
with a different error, so the spec's unconditional iff fails. -/
theorem c8_loader_validation_amended (listing : List (String × JObj)) :
    (∀ r file, load_languages_from_dir listing = .error (.missingField r file) →
       r ∈ requiredFields ∧ ∃ obj, (file, obj) ∈ processedFiles listing ∧
         obj.any (fun p => p.1 == r) = false) ∧
    ((∃ f ∈ processedFiles listing, ∃ r ∈ requiredFields,
        f.2.any (fun p => p.1 == r) = false) →
      ∃ e, load_languages_from_dir listing = .error e) ∧
    (∀ pre f post, processedFiles listing = pre ++ f :: post →
      (∀ g ∈ pre, ∃ L, loadOneFile g.1 g.2 = .ok L) →
      (∃ r ∈ requiredFields, f.2.any (fun p => p.1 == r) = false) →
      ∃ r', load_languages_from_dir listing = .error (.missingField r' f.1)) ∧
    ((∀ f ∈ processedFiles listing, ∀ r ∈ requiredFields,
        f.2.any (fun p => p.1 == r) = true) →
      ((∃ e, load_languages_from_dir listing = .error e) ↔
        ∃ f ∈ processedFiles listing,
          ¬ ((caseOfObj f.2 = "true" ∨ caseOfObj f.2 = "false") ∧
             patternOfObj f.2 ≠ ""))) ∧
    (∀ langs, load_languages_from_dir listing = .ok langs →
       langs.length = (processedFiles listing).length) := by
  rw [load_dir_eq_loadFiles]
  refine ⟨?_, ?_, ?_, ?_, ?_⟩
  · intro r file h
    obtain ⟨f, hf, hfe⟩ := loadFiles_error_mem _ _ h
    rcases loadOneFile_error_forms f.1 f.2 _ hfe with
      ⟨r0, he, hr0, habs⟩ | ⟨he, -⟩ | ⟨he, -, -⟩
    · obtain ⟨h1, h2⟩ : r = r0 ∧ file = f.1 := by
        have := he
        simp only [Err.missingField.injEq] at this
        exact this
      subst h1
      refine ⟨hr0, f.2, ?_, habs⟩
      rw [h2]
      exact hf
    · exact absurd he (by simp)
    · exact absurd he (by simp)
  · rintro ⟨f, hf, r, hr, habs⟩
    cases hres : loadFiles (processedFiles listing) with
    | ok ls =>
      exfalso
      obtain ⟨-, hall⟩ := loadFiles_ok_all _ _ hres
      obtain ⟨L, hL⟩ := hall f hf
      obtain ⟨r', hr'⟩ := loadOneFile_missing_of_absent f.1 f.2 r hr habs
      rw [hL] at hr'
      exact Except.noConfusion hr'
    | error e => exact ⟨e, rfl⟩
  · rintro pre f post hsplit hok ⟨r, hr, habs⟩
    obtain ⟨r', hr'⟩ := loadOneFile_missing_of_absent f.1 f.2 r hr habs
    refine ⟨r', ?_⟩
    rw [hsplit]
    exact loadFiles_first_error pre f post _ hok hr'
  · intro hall
    constructor
    · rintro ⟨e, he⟩
      obtain ⟨f, hf, hfe⟩ := loadFiles_error_mem _ _ he
      rcases loadOneFile_error_forms f.1 f.2 _ hfe with
        ⟨r0, -, hr0, habs⟩ | ⟨-, hnc⟩ | ⟨-, -, hp⟩
      · exact absurd (hall f hf r0 hr0) (by rw [habs]; exact Bool.noConfusion)
      · exact ⟨f, hf, fun hc => hnc hc.1⟩
      · exact ⟨f, hf, fun hc => hc.2 hp⟩
    · rintro ⟨f, hf, hbad⟩
      cases hres : loadFiles (processedFiles listing) with
      | ok ls =>
        exfalso
        obtain ⟨-, hallok⟩ := loadFiles_ok_all _ _ hres
        obtain ⟨L, hL⟩ := hallok f hf
        obtain ⟨hcf, hpf⟩ := loadOneFile_ok_fields f.1 f.2 L hL
        obtain ⟨hc, hp, -⟩ := loadOneFile_ok_props f.1 f.2 L hL
        refine hbad ⟨?_, ?_⟩
        · rw [← hcf]
          exact hc
        · rw [← hpf]
          exact hp
      | error e => exact ⟨e, rfl⟩
  · intro langs h
    exact (loadFiles_ok_all _ _ h).1

def c8exObjA : JObj :=
  [("uuid", JVal.jstr "a"), ("name", JVal.jstr "A"),
   ("filenamePattern", JVal.jstr "p"), ("isCaseSensitive", JVal.jstr "maybe"),
   ("lexer", JVal.jstr "generic")]

def c8exObjB : JObj :=
  [("name", JVal.jstr "B"), ("filenamePattern", JVal.jstr "q"),
   ("isCaseSensitive", JVal.jstr "false"), ("lexer", JVal.jstr "generic")]

def c8exListing : List (String × JObj) :=
  [("a.json", c8exObjA), ("b.json", c8exObjB)]

/-- Counterexample to claim C8 as stated: `b.json` is missing the required
field `uuid`, yet the loader does not fail with a missingField error — the
earlier file `a.json` has an invalid `isCaseSensitive` and masks it with a
badCase error — refuting the claimed unconditional iff. -/
theorem c8_loader_counterexample :
    (∃ f ∈ processedFiles c8exListing, ∃ r ∈ requiredFields,
       f.2.any (fun p => p.1 == r) = false) ∧
    load_languages_from_dir c8exListing = .error (.badCase "a.json") ∧
    ∀ r file, load_languages_from_dir c8exListing ≠ .error (.missingField r file) := by
  refine ⟨⟨("b.json", c8exObjB), by decide, "uuid", by decide, by decide⟩, rfl, ?_⟩
  intro r file h
  have h2 := h.symm.trans
    (show load_languages_from_dir c8exListing = .error (.badCase "a.json") from rfl)
  exact Err.noConfusion (Except.error.inj h2)

def c8wListing : List (String × JObj) :=
  [("w.json", [("uuid", JVal.jstr "u8"), ("name", JVal.jstr "W"),
     ("filenamePattern", JVal.jstr "*.w"), ("isCaseSensitive", JVal.jstr "true"),
     ("lexer", JVal.jstr "generic")])]

/-- Witness for the amended C8 theorem at a concrete one-file directory. -/
theorem c8_loader_validation_amended_witness :
    (∀ r file, load_languages_from_dir c8wListing = .error (.missingField r file) →
       r ∈ requiredFields ∧ ∃ obj, (file, obj) ∈ processedFiles c8wListing ∧
         obj.any (fun p => p.1 == r) = false) ∧
    ((∃ f ∈ processedFiles c8wListing, ∃ r ∈ requiredFields,
        f.2.any (fun p => p.1 == r) = false) →
      ∃ e, load_languages_from_dir c8wListing = .error e) ∧
    (∀ pre f post, processedFiles c8wListing = pre ++ f :: post →
      (∀ g ∈ pre, ∃ L, loadOneFile g.1 g.2 = .ok L) →
      (∃ r ∈ requiredFields, f.2.any (fun p => p.1 == r) = false) →
      ∃ r', load_languages_from_dir c8wListing = .error (.missingField r' f.1)) ∧
    ((∀ f ∈ processedFiles c8wListing, ∀ r ∈ requiredFields,
        f.2.any (fun p => p.1 == r) = true) →
      ((∃ e, load_languages_from_dir c8wListing = .error e) ↔
        ∃ f ∈ processedFiles c8wListing,
          ¬ ((caseOfObj f.2 = "true" ∨ caseOfObj f.2 = "false") ∧
             patternOfObj f.2 ≠ ""))) ∧
    (∀ langs, load_languages_from_dir c8wListing = .ok langs →
       langs.length = (processedFiles c8wListing).length) :=
  c8_loader_validation_amended c8wListing

-- Totality and transitivity of the path-name comparison.

theorem charListLe_total : ∀ (a b : List Char),
    charListLe a b = true ∨ charListLe b a = true := by
  intro a
  induction a with
  | nil => intro b; exact Or.inl rfl
  | cons x xs ih =>
    intro b
    cases b with
    | nil => exact Or.inr rfl
    | cons y ys =>
      by_cases hxy : x.toNat < y.toNat
      · exact Or.inl (by simp [charListLe, hxy])
      · by_cases hyx : y.toNat < x.toNat
        · exact Or.inr (by simp [charListLe, hyx])
        · rcases ih ys with h | h
          · exact Or.inl (by simp [charListLe, hxy, hyx, h])
          · exact Or.inr (by simp [charListLe, hxy, hyx, h])

theorem charListLe_trans : ∀ (a b c : List Char),
    charListLe a b = true → charListLe b c = true → charListLe a c = true := by
  intro a
  induction a with
  | nil => intro b c _ _; rfl
  | cons x xs ih =>
    intro b c hab hbc
    cases b with
    | nil => simp [charListLe] at hab
    | cons y ys =>
      cases c with
      | nil => simp [charListLe] at hbc
      | cons z zs =>
        simp only [charListLe] at hab hbc ⊢
        rcases Nat.lt_trichotomy x.toNat y.toNat with hxy | hxy | hxy
        · rcases Nat.lt_trichotomy y.toNat z.toNat with hyz | hyz | hyz
          · rw [if_pos (Nat.lt_trans hxy hyz)]
          · rw [if_pos (show x.toNat < z.toNat from hyz ▸ hxy)]
          · rw [if_neg (Nat.lt_asymm hyz), if_pos hyz] at hbc
            exact absurd hbc (by simp)
        · rw [if_neg (by rw [hxy]; exact Nat.lt_irrefl _),
            if_neg (by rw [hxy]; exact Nat.lt_irrefl _)] at hab
          rcases Nat.lt_trichotomy y.toNat z.toNat with hyz | hyz | hyz
          · rw [if_pos (show x.toNat < z.toNat from by rw [hxy]; exact hyz)]
          · have hxz : x.toNat = z.toNat := hxy.trans hyz
            rw [if_neg (by rw [hyz]; exact Nat.lt_irrefl _),
              if_neg (by rw [hyz]; exact Nat.lt_irrefl _)] at hbc
            rw [if_neg (by rw [hxz]; exact Nat.lt_irrefl _),
              if_neg (by rw [hxz]; exact Nat.lt_irrefl _)]
            exact ih ys zs hab hbc
          · rw [if_neg (Nat.lt_asymm hyz), if_pos hyz] at hbc
            exact absurd hbc (by simp)
        · rw [if_neg (Nat.lt_asymm hxy), if_pos hxy] at hab
          exact absurd hab (by simp)

theorem processedFiles_sorted (listing : List (String × JObj)) :
    (processedFiles listing).Pairwise (fun a b => strLe a.1 b.1 = true) := by
  haveI : IsTotal (String × JObj) (fun a b => strLe a.1 b.1 = true) :=
    ⟨fun a b => charListLe_total a.1.data b.1.data⟩
  haveI : IsTrans (String × JObj) (fun a b => strLe a.1 b.1 = true) :=
    ⟨fun a b c => charListLe_trans a.1.data b.1.data c.1.data⟩
  exact List.sorted_insertionSort _ _

/-- Claim C10: the directory loader processes exactly the listing entries
whose names match `*.json` (a name ending in `.json`), in sorted name
order; entries with any other name never reach the per-file
parse/validate stage, which consumes only the processed list. -/
theorem c10_loader_glob_sorted (listing : List (String × JObj)) :
    load_languages_from_dir listing = loadFiles (processedFiles listing) ∧
    (processedFiles listing).Perm
      (listing.filter (fun f => matchesJsonGlob f.1)) ∧
    (processedFiles listing).Pairwise (fun a b => strLe a.1 b.1 = true) ∧
    (∀ f ∈ processedFiles listing, f ∈ listing ∧ matchesJsonGlob f.1 = true) ∧
    (∀ f ∈ listing, matchesJsonGlob f.1 = true → f ∈ processedFiles listing) ∧
    (∀ f ∈ listing, matchesJsonGlob f.1 = false → f ∉ processedFiles listing) := by
  refine ⟨rfl, List.perm_insertionSort _ _, processedFiles_sorted listing, ?_, ?_, ?_⟩
  · intro f hf
    have hmem : f ∈ listing.filter (fun g => matchesJsonGlob g.1) :=
      (List.perm_insertionSort _ _).mem_iff.mp hf
    exact List.mem_filter.mp hmem
  · intro f hf hglob
    exact (List.perm_insertionSort _ _).mem_iff.mpr (List.mem_filter.mpr ⟨hf, hglob⟩)
  · intro f _ hglob hmem
    have hmem' := (List.perm_insertionSort _ _).mem_iff.mp hmem
    have := (List.mem_filter.mp hmem').2
    rw [hglob] at this
    exact Bool.noConfusion this

def c10wListing : List (String × JObj) :=
  [("b.json", []), ("notes.txt", []), ("a.json", [])]

/-- Witness for the C10 theorem at a concrete three-entry directory. -/
theorem c10_loader_glob_sorted_witness :
    load_languages_from_dir c10wListing = loadFiles (processedFiles c10wListing) ∧
    (processedFiles c10wListing).Perm
      (c10wListing.filter (fun f => matchesJsonGlob f.1)) ∧
    (processedFiles c10wListing).Pairwise (fun a b => strLe a.1 b.1 = true) ∧
    (∀ f ∈ processedFiles c10wListing, f ∈ c10wListing ∧ matchesJsonGlob f.1 = true) ∧
    (∀ f ∈ c10wListing, matchesJsonGlob f.1 = true → f ∈ processedFiles c10wListing) ∧
    (∀ f ∈ c10wListing, matchesJsonGlob f.1 = false → f ∉ processedFiles c10wListing) :=
  c10_loader_glob_sorted c10wListing

-- Structure of a successful merge result.

theorem merge_result_ok_inv (targetRaw : Option String)
    (listing : List (String × JObj)) (final : List Language) (flat : Flat)
    (h : merge_result targetRaw listing = .ok (final, flat)) :
    flat = build_flat_from_languages final ∧
    ∃ tf langs st,
      load_languages_from_dir listing = .ok langs ∧
      mergeLoop ⟨tf, (parse_languages_from_flat tf).1,
        (parse_languages_from_flat tf).2⟩ langs = .ok st ∧
      final = st.uuid_to_lang.map (fun p => p.2) := by
  have hred : ∃ tf,
      merge_result targetRaw listing =
      (match load_languages_from_dir listing with
       | .error e => Except.error e
       | .ok incoming =>
         match mergeLoop ⟨tf, (parse_languages_from_flat tf).1,
             (parse_languages_from_flat tf).2⟩ incoming with
         | .error e => Except.error e
         | .ok st =>
           Except.ok (st.uuid_to_lang.map (fun p => p.2),
             build_flat_from_languages (st.uuid_to_lang.map (fun p => p.2)))) := by
    cases targetRaw with
    | none => exact ⟨[], rfl⟩
    | some raw =>
      cases hload : load_json_with_optional_header raw with
      | none =>
        refine ⟨[], ?_⟩
        rw [show merge_result (some raw) listing = .error .fmt from by
          simp only [merge_result, hload]] at h
        exact Except.noConfusion h
      | some tf =>
        refine ⟨tf, ?_⟩
        simp only [merge_result, hload]
  obtain ⟨tf, hr⟩ := hred
  rw [hr] at h
  cases hl : load_languages_from_dir listing with
  | error e =>
    rw [hl] at h
    exact Except.noConfusion h
  | ok langs =>
    rw [hl] at h
    simp only [] at h
    cases hm : mergeLoop ⟨tf, (parse_languages_from_flat tf).1,
        (parse_languages_from_flat tf).2⟩ langs with
    | error e =>
      rw [hm] at h
      exact Except.noConfusion h
    | ok st =>
      rw [hm] at h
      have hp : (st.uuid_to_lang.map (fun p => p.2),
          build_flat_from_languages (st.uuid_to_lang.map (fun p => p.2))) =
          (final, flat) := Except.ok.inj h
      have h1 : final = st.uuid_to_lang.map (fun p => p.2) := (Prod.ext_iff.mp hp).1.symm
      have h2 : flat = build_flat_from_languages (st.uuid_to_lang.map (fun p => p.2)) :=
        (Prod.ext_iff.mp hp).2.symm
      exact ⟨by rw [h2, h1], tf, langs, st, rfl, hm, h1⟩

theorem mergeLoop_entries : ∀ (rest : List Language) (st st' : MState),
    mergeLoop st rest = .ok st' →
    ∀ p ∈ st'.uuid_to_lang, p ∈ st.uuid_to_lang ∨ p.2 ∈ rest := by
  intro rest
  induction rest with
  | nil =>
    intro st st' h p hp
    have : st = st' := Except.ok.inj h
    subst this
    exact Or.inl hp
  | cons L rest ih =>
    intro st st' h p hp
    rw [mergeLoop_cons] at h
    by_cases hb : ((!(dmem st.uuid_to_lang L.uuid)) &&
        ((dget st.pattern_to_uuid L.filenamePattern).getD "" != "" &&
         (dget st.pattern_to_uuid L.filenamePattern).getD "" != L.uuid)) = true
    · rw [if_pos hb] at h
      exact Except.noConfusion h
    · rw [if_neg hb] at h
      rcases ih _ _ h p hp with hin | hin
      · rcases mem_dinsert st.uuid_to_lang L.uuid L p hin with he | he
        · exact Or.inr (by rw [he]; exact List.mem_cons_self L rest)
        · exact Or.inl he
      · exact Or.inr (List.mem_cons_of_mem _ hin)

theorem mergeLoop_preserve : ∀ (rest : List Language) (st st' : MState) (u : String),
    mergeLoop st rest = .ok st' → (∀ M ∈ rest, M.uuid ≠ u) →
    dget st'.uuid_to_lang u = dget st.uuid_to_lang u := by
  intro rest
  induction rest with
  | nil =>
    intro st st' u h _
    have : st = st' := Except.ok.inj h
    subst this
    rfl
  | cons L rest ih =>
    intro st st' u h hne
    rw [mergeLoop_cons] at h
    by_cases hb : ((!(dmem st.uuid_to_lang L.uuid)) &&
        ((dget st.pattern_to_uuid L.filenamePattern).getD "" != "" &&
         (dget st.pattern_to_uuid L.filenamePattern).getD "" != L.uuid)) = true
    · rw [if_pos hb] at h
      exact Except.noConfusion h
    · rw [if_neg hb] at h
      rw [ih _ _ u h (fun M hM => hne M (List.mem_cons_of_mem _ hM))]
      exact dget_dinsert_ne st.uuid_to_lang L.uuid L u
        (fun he => hne L (List.mem_cons_self L rest) he.symm)

theorem mergeLoop_last_wins : ∀ (rest : List Language) (st st' : MState) (L : Language),
    mergeLoop st rest = .ok st' → L ∈ rest →
    (∀ M ∈ rest, M.uuid = L.uuid → M = L) →
    dget st'.uuid_to_lang L.uuid = some L := by
  intro rest
  induction rest with
  | nil =>
    intro st st' L _ hL _
    cases hL
  | cons M rest ih =>
    intro st st' L h hL huniq
    rw [mergeLoop_cons] at h
    by_cases hb : ((!(dmem st.uuid_to_lang M.uuid)) &&
        ((dget st.pattern_to_uuid M.filenamePattern).getD "" != "" &&
         (dget st.pattern_to_uuid M.filenamePattern).getD "" != M.uuid)) = true
    · rw [if_pos hb] at h
      exact Except.noConfusion h
    · rw [if_neg hb] at h
      by_cases hmem : L ∈ rest
      · exact ih _ _ L h hmem
          (fun M' hM' he => huniq M' (List.mem_cons_of_mem _ hM') he)
      · have hML : M = L := by
          rcases List.mem_cons.mp hL with he | he
          · exact he.symm
          · exact absurd he hmem
        subst hML
        have hnot : ∀ M' ∈ rest, M'.uuid ≠ M.uuid := by
          intro M' hM' he
          exact hmem (huniq M' (List.mem_cons_of_mem _ hM') he ▸ hM')
        rw [mergeLoop_preserve rest _ _ M.uuid h hnot]
        exact dget_dinsert_self st.uuid_to_lang M.uuid M

-- Normalization performed by Language.from_flat.

theorem from_flat_case (u fp : String) (flat : Flat) :
    (Language.from_flat u fp flat).isCaseSensitive = "true" ∨
    (Language.from_flat u fp flat).isCaseSensitive = "false" := by
  unfold Language.from_flat
  simp only
  split
  · split
    · split
      · rename_i hval
        exact hval
      · exact Or.inr rfl
    · exact Or.inr rfl
  · exact Or.inr rfl

theorem from_flat_lexer (u fp : String) (flat : Flat) :
    (Language.from_flat u fp flat).lexer ≠ "" := by
  unfold Language.from_flat
  simp only
  split
  · simp
  · rename_i hs
    exact hs

theorem parse_fold_entry_shape (flat : Flat) :
    ∀ (kvs : List (String × String)) (acc : Dict Language × Flat),
      (∀ p ∈ acc.1, ∃ u fp, p.2 = Language.from_flat u fp flat) →
      ∀ p ∈ (kvs.foldl (parseStep flat) acc).1,
        ∃ u fp, p.2 = Language.from_flat u fp flat := by
  intro kvs
  induction kvs with
  | nil => intro acc hacc p hp; exact hacc p hp
  | cons kv rest ih =>
    intro acc hacc p hp
    rw [List.foldl_cons] at hp
    refine ih (parseStep flat acc kv) ?_ p hp
    intro q hq
    unfold parseStep at hq
    by_cases hpref : K_FILE_PATTERNS.data.isPrefixOf kv.1.data
    · simp only [hpref, if_true] at hq
      rcases mem_dinsert _ _ _ q hq with he | he
      · refine ⟨String.mk (kv.1.data.drop K_FILE_PATTERNS.data.length), kv.2, ?_⟩
        rw [he]
      · exact hacc q he
    · simp only [hpref, if_false] at hq
      exact hacc q hq

theorem parse_entry_shape (flat : Flat) :
    ∀ p ∈ (parse_languages_from_flat flat).1,
      ∃ u fp, p.2 = Language.from_flat u fp flat := by
  intro p hp
  exact parse_fold_entry_shape flat flat ([], []) (by intro q hq; cases hq) p hp

/-- Every record in a successful merge's final set is normalized: its
`isCaseSensitive` is the literal `"true"` or `"false"` and its lexer is
non-empty — whether it came from the decoded target or from the input
directory. -/
theorem merge_final_normalized (targetRaw : Option String)
    (listing : List (String × JObj)) (final : List Language) (flat : Flat)
    (h : merge_result targetRaw listing = .ok (final, flat)) :
    ∀ L ∈ final,
      (L.isCaseSensitive = "true" ∨ L.isCaseSensitive = "false") ∧ L.lexer ≠ "" := by
  obtain ⟨-, tf, langs, st, hload, hml, hfin⟩ :=
    merge_result_ok_inv targetRaw listing final flat h
  intro L hL
  rw [hfin] at hL
  obtain ⟨p, hp, hpe⟩ := List.mem_map.mp hL
  rcases mergeLoop_entries langs _ st hml p hp with hin | hin
  · obtain ⟨u, fp, he⟩ := parse_entry_shape tf p hin
    rw [← hpe, he]
    exact ⟨from_flat_case u fp tf, from_flat_lexer u fp tf⟩
  · have := load_dir_props listing langs hload p.2 hin
    rw [← hpe]
    exact ⟨this.1, this.2.2⟩

/-- Claim C9: a successful merge writes a blob rebuilt entirely from the
final uuid-to-record set: every key is one of the eleven keys generated
from some final record (so any target key not regenerated — stale content
keys, unrecognized-prefix keys, orphaned description keys — is absent);
every final record, including untouched target records, is re-serialized
through the record model with normalized `isCaseSensitive` and a non-empty
lexer, and (when its suffix is unique in the final set) its `keywords7`
and `lexer` cells hold the re-normalized `caseValue`/`lexerValue`, not the
target's verbatim text. -/
theorem c9_merge_rebuild_invariants (targetRaw : Option String)
    (listing : List (String × JObj)) (final : List Language) (flat : Flat)
    (h : merge_result targetRaw listing = .ok (final, flat)) :
    flat = build_flat_from_languages final ∧
    (∀ k ∈ dkeys flat, ∃ L ∈ final, k ∈ blockKeys L) ∧
    (∀ L ∈ final, (L.isCaseSensitive = "true" ∨ L.isCaseSensitive = "false") ∧
       L.lexer ≠ "") ∧
    (∀ L ∈ final, (∀ M ∈ final, keySuffix M = keySuffix L → M = L) →
       dget flat (K_CASE ++ keySuffix L) = some (caseValue L) ∧
       dget flat (K_LEXER ++ keySuffix L) = some (lexerValue L)) := by
  obtain ⟨hflat, -⟩ := merge_result_ok_inv targetRaw listing final flat h
  refine ⟨hflat, ?_, merge_final_normalized targetRaw listing final flat h, ?_⟩
  · intro k hk
    rw [hflat] at hk
    rcases mem_dkeys_build k final [] hk with h' | h'
    · exact absurd h' (by simp [dkeys])
    · exact h'
  · intro L hL huniq
    rw [hflat]
    constructor
    · have := dget_foldl_insertBlock_content K_CASE (by decide) L final [] hL huniq
      rw [contentValue_CASE] at this
      exact this
    · have := dget_foldl_insertBlock_content K_LEXER (by decide) L final [] hL huniq
      rw [contentValue_LEXER] at this
      exact this

def c9wListing : List (String × JObj) :=
  [("w.json", [("uuid", JVal.jstr "u9"), ("name", JVal.jstr "W"),
     ("filenamePattern", JVal.jstr "*.w"), ("isCaseSensitive", JVal.jstr "true"),
     ("lexer", JVal.jstr "generic")])]

def c9wRec : Language :=
  { uuid := "u9", name := "W", filenamePattern := "*.w", isCaseSensitive := "true" }

/-- Witness for the C9 theorem at a concrete merge into an empty target. -/
theorem c9_merge_rebuild_invariants_witness :
    build_flat_from_languages [c9wRec] = build_flat_from_languages [c9wRec] ∧
    (∀ k ∈ dkeys (build_flat_from_languages [c9wRec]),
       ∃ L ∈ [c9wRec], k ∈ blockKeys L) ∧
    (∀ L ∈ [c9wRec],
       (L.isCaseSensitive = "true" ∨ L.isCaseSensitive = "false") ∧ L.lexer ≠ "") ∧
    (∀ L ∈ [c9wRec], (∀ M ∈ [c9wRec], keySuffix M = keySuffix L → M = L) →
       dget (build_flat_from_languages [c9wRec]) (K_CASE ++ keySuffix L) =
         some (caseValue L) ∧
       dget (build_flat_from_languages [c9wRec]) (K_LEXER ++ keySuffix L) =
         some (lexerValue L)) :=
  c9_merge_rebuild_invariants none c9wListing [c9wRec]
    (build_flat_from_languages [c9wRec]) rfl

/-- Claim C3 (amended): after a successful merge, (i) no content key under
a suffix that no final record maps to survives in the output — in
particular an upserted record's old suffix leaves no orphaned content
keys; (ii) a final record whose suffix is unique in the final set — in
particular an upserted record whose new suffix collides with no other
record — has all nine content keys under its suffix holding its own
serialized values; (iii) an incoming record whose uuid is unique in the
loaded directory is itself in the final set.  Without the uniqueness
proviso in (ii) another final record sharing the suffix can overwrite the
incoming record's content cells. -/
theorem c3_merge_upsert_amended (targetRaw : Option String)
    (listing : List (String × JObj)) (final : List Language) (flat : Flat)
    (h : merge_result targetRaw listing = .ok (final, flat)) :
    (∀ s, (∀ L ∈ final, keySuffix L ≠ s) →
       ∀ pref ∈ ninePrefixes, dget flat (pref ++ s) = none) ∧
    (∀ L ∈ final, (∀ M ∈ final, keySuffix M = keySuffix L → M = L) →
       ∀ pref ∈ ninePrefixes,
         dget flat (pref ++ keySuffix L) = some (contentValue L pref)) ∧
    (∀ langs, load_languages_from_dir listing = .ok langs →
       ∀ L ∈ langs, (∀ M ∈ langs, M.uuid = L.uuid → M = L) → L ∈ final) := by
  obtain ⟨hflat, tf, langs0, st, hload0, hml0, hfin⟩ :=
    merge_result_ok_inv targetRaw listing final flat h
  refine ⟨?_, ?_, ?_⟩
  · intro s hs pref hpref
    rw [hflat]
    show dget (List.foldl insertBlock [] final) (pref ++ s) = none
    have hnone : dget (final.foldl insertBlock ([] : Flat)) (pref ++ s) =
        dget ([] : Flat) (pref ++ s) := by
      apply dget_foldl_insertBlock_of_ne
      intro M hM
      obtain ⟨hsep, hfp, hdesc⟩ := pref_sep pref hpref
      refine ⟨hfp _ _, hdesc _ _, ?_⟩
      intro q hq
      by_cases hqp : q = pref
      · subst hqp
        exact ne_key_of_ne_arg (fun he => hs M hM he.symm)
      · exact hsep q hq hqp _ _
    rw [hnone]
    rfl
  · intro L hL huniq pref hpref
    rw [hflat]
    exact dget_foldl_insertBlock_content pref hpref L final [] hL huniq
  · intro langs hload L hL huniq
    have he : langs0 = langs := Except.ok.inj (hload0.symm.trans hload)
    subst he
    have hw := mergeLoop_last_wins langs0 _ st L hml0 hL huniq
    rw [hfin]
    exact List.mem_map.mpr ⟨(L.uuid, L), dget_mem _ _ _ hw, rfl⟩

def c3exTargetFlat : Flat :=
  [("file.patterns.y", "*.h"), ("file.patterns.x", "cpp")]

def c3exTarget : String := dump_araxis_json c3exTargetFlat false

def c3exListing : List (String × JObj) :=
  [("y.json", [("uuid", JVal.jstr "y"), ("name", JVal.jstr "Y"),
     ("filenamePattern", JVal.jstr "*.cpp"), ("isCaseSensitive", JVal.jstr "false"),
     ("lexer", JVal.jstr "generic"), ("keywordsClass1", JVal.jstr "Q")])]

def c3exIncoming : Language :=
  { uuid := "y", name := "Y", filenamePattern := "*.cpp",
    keywordsClass1 := "Q", isCaseSensitive := "false" }

/-- Counterexample to claim C3 as stated: record `y` exists in the target
under pattern `*.h` and arrives with new pattern `*.cpp` and
keywordsClass1 `Q`; the merge succeeds, but the output's
`keywords.*.cpp` cell holds the untouched target record `x`'s empty value
(pattern `cpp` has the same suffix), not the incoming record's `Q`. -/
theorem c3_merge_upsert_counterexample :
    load_json_with_optional_header c3exTarget = some c3exTargetFlat ∧
    load_languages_from_dir c3exListing = .ok [c3exIncoming] ∧
    dmem (parse_languages_from_flat c3exTargetFlat).1 "y" = true ∧
    pattern_to_key_suffix "*.h" ≠ pattern_to_key_suffix "*.cpp" ∧
    c3exIncoming.keywordsClass1 = "Q" ∧
    (∃ flat, merge_result (some c3exTarget) c3exListing =
        .ok ([c3exIncoming, Language.from_flat "x" "cpp" c3exTargetFlat], flat) ∧
      dget flat (K_KW1 ++ pattern_to_key_suffix "*.cpp") = some "") := by
  refine ⟨rfl, rfl, rfl, by decide, rfl, ?_⟩
  exact ⟨build_flat_from_languages
    [c3exIncoming, Language.from_flat "x" "cpp" c3exTargetFlat], rfl, rfl⟩

def c3wListing : List (String × JObj) :=
  [("w.json", [("uuid", JVal.jstr "u3"), ("name", JVal.jstr "W"),
     ("filenamePattern", JVal.jstr "*.w"), ("isCaseSensitive", JVal.jstr "true"),
     ("lexer", JVal.jstr "generic")])]

def c3wRec : Language :=
  { uuid := "u3", name := "W", filenamePattern := "*.w", isCaseSensitive := "true" }

/-- Witness for the amended C3 theorem at a concrete merge into an empty
target. -/
theorem c3_merge_upsert_amended_witness :
    (∀ s, (∀ L ∈ [c3wRec], keySuffix L ≠ s) →
       ∀ pref ∈ ninePrefixes,
         dget (build_flat_from_languages [c3wRec]) (pref ++ s) = none) ∧
    (∀ L ∈ [c3wRec], (∀ M ∈ [c3wRec], keySuffix M = keySuffix L → M = L) →
       ∀ pref ∈ ninePrefixes,
         dget (build_flat_from_languages [c3wRec]) (pref ++ keySuffix L) =
           some (contentValue L pref)) ∧
    (∀ langs, load_languages_from_dir c3wListing = .ok langs →
       ∀ L ∈ langs, (∀ M ∈ langs, M.uuid = L.uuid → M = L) → L ∈ [c3wRec]) :=
  c3_merge_upsert_amended none c3wListing [c3wRec]
    (build_flat_from_languages [c3wRec]) rfl

end Araxis
